import Mathlib

/-!
Verification of the shortest-path subsystem of the petgraph repository
(crates/algorithms/src/shortest_paths) and of the acyclic order map
(src/acyclic/order_map.rs).

The Floyd-Warshall engine itself is not part of the source excerpt (only its
tests are), so the engine is modelled from the specification, section 4.5:
an all-pairs dynamic-programming algorithm over a cost/predecessor matrix,
parameterized by directedness, with negative-cycle detection on the diagonal.
Nodes are `Fin n`, costs are `Int` (the tests instantiate the generic measure
with machine integers), and the graph is an edge list with costs.
-/

/-- Modelled from the spec: engine construction offers `directed()` /
`undirected()` constructors and no other runtime configuration. -/
inductive Direction : Type
| directed : Direction
| undirected : Direction
deriving DecidableEq

/-- A weighted graph on `n` nodes: a list of edges `(source, target, cost)`.
This models the read-only graph view consumed by the engine. -/
structure FWGraph (n : Nat) : Type where
  edges : List (Fin n × Fin n × Int)

/-- Modelled from the spec: undirected graphs are modelled by relaxing both
edge orientations, so the effective edge list doubles each edge reversed. -/
def edgeList {n : Nat} (dir : Direction) (g : FWGraph n) : List (Fin n × Fin n × Int) :=
  match dir with
  | Direction.directed => g.edges
  | Direction.undirected => g.edges ++ g.edges.map (fun e => (e.2.1, e.1, e.2.2))

/-- A distance/path matrix entry: total cost together with the transit nodes
(the interior of the reconstructed path, excluding both endpoints).
Modelled from the spec: the matrix stores (cost, predecessor-or-none) and
reconstruction recursively expands predecessors; here each entry carries the
already-expanded transit list, which is observably the same data. -/
def Table (n : Nat) : Type := Fin n → Fin n → Option (Int × List (Fin n))

/-- Write one cell of the matrix. -/
def upd {n : Nat} (t : Table n) (i j : Fin n) (e : Option (Int × List (Fin n))) : Table n :=
  fun a b => if a = i ∧ b = j then e else t a b

/-- Modelled from the spec: the matrix is initialized with diagonal entries at
the cost identity (zero) and everything else absent. -/
def diagTable (n : Nat) : Table n :=
  fun i j => if i = j then some (0, []) else none

/-- Modelled from the spec: each edge `(u,v)` sets the `(u,v)` entry to the
minimum of its current value and the edge cost (parallel edges are reduced by
minimum); the direct path has no transit nodes. -/
def insertEdge {n : Nat} (t : Table n) (e : Fin n × Fin n × Int) : Table n :=
  match t e.1 e.2.1 with
  | none => upd t e.1 e.2.1 (some (e.2.2, []))
  | some (c0, _) => if e.2.2 < c0 then upd t e.1 e.2.1 (some (e.2.2, [])) else t

/-- The matrix after initialization from direct edges. -/
def initTable {n : Nat} (dir : Direction) (g : FWGraph n) : Table n :=
  (edgeList dir g).foldl insertEdge (diagTable n)

/-- Modelled from the spec: for intermediate vertex `k` and pair `(i,j)`, if
the path i -> k -> j is known and improves on the current `(i,j)` entry
(an absent entry is improved by any known candidate), update it; the transit
of the combined path is `transit(i,k) ++ k :: transit(k,j)`. -/
def relaxPair {n : Nat} (k : Fin n) (t : Table n) (ij : Fin n × Fin n) : Table n :=
  match t ij.1 k, t k ij.2 with
  | some (c1, p1), some (c2, p2) =>
    match t ij.1 ij.2 with
    | none => upd t ij.1 ij.2 (some (c1 + c2, p1 ++ k :: p2))
    | some (c0, _) =>
      if c1 + c2 < c0 then upd t ij.1 ij.2 (some (c1 + c2, p1 ++ k :: p2)) else t
  | _, _ => t

/-- All ordered pairs of nodes, in row-major order. -/
def pairList (n : Nat) : List (Fin n × Fin n) :=
  (List.finRange n).flatMap (fun i => (List.finRange n).map (fun j => (i, j)))

/-- One round of the dynamic program: relax every pair through `k`, in place. -/
def stepK {n : Nat} (k : Fin n) (t : Table n) : Table n :=
  (pairList n).foldl (relaxPair k) t

/-- The full Floyd-Warshall matrix: every node taken as intermediate, in order. -/
def fwTable {n : Nat} (dir : Direction) (g : FWGraph n) : Table n :=
  (List.finRange n).foldl (fun t k => stepK k t) (initTable dir g)

/-- Modelled from the spec: after the relaxation rounds, every node whose
diagonal self-distance has been driven below zero participates in a negative
cycle; the complete set of such nodes is reported. -/
def negParticipants {n : Nat} (t : Table n) : List (Fin n) :=
  (List.finRange n).filter (fun k =>
    match t k k with
    | some (c, _) => decide (c < 0)
    | none => false)

/-- A route returned by the path-producing queries: claimed source and target,
the transit (interior) nodes of the path, and the total cost. -/
structure Route (n : Nat) : Type where
  source : Fin n
  target : Fin n
  transit : List (Fin n)
  cost : Int
deriving DecidableEq

/-- A direct route returned by the cost-only queries: endpoints and cost. -/
structure DirectRoute (n : Nat) : Type where
  source : Fin n
  target : Fin n
  cost : Int
deriving DecidableEq

/-- The ordered node sequence of a route's path, endpoints included; the
self-route with no transit is the trivial one-node path. -/
def Route.nodeSeq {n : Nat} (r : Route n) : List (Fin n) :=
  if r.transit = [] ∧ r.source = r.target then [r.source]
  else r.source :: (r.transit ++ [r.target])

/-- Modelled from the spec: the all-pairs path query; on detection of a
negative cycle the call fails with the participant set, otherwise it yields
one route per present matrix entry. -/
def every_path {n : Nat} (dir : Direction) (g : FWGraph n) :
    Except (List (Fin n)) (List (Route n)) :=
  match negParticipants (fwTable dir g) with
  | [] => Except.ok ((pairList n).filterMap (fun ij =>
      (fwTable dir g ij.1 ij.2).map (fun e => Route.mk ij.1 ij.2 e.2 e.1)))
  | ps => Except.error ps

/-- Modelled from the spec: the single-source path query. -/
def path_from {n : Nat} (dir : Direction) (g : FWGraph n) (s : Fin n) :
    Except (List (Fin n)) (List (Route n)) :=
  match negParticipants (fwTable dir g) with
  | [] => Except.ok ((List.finRange n).filterMap (fun j =>
      (fwTable dir g s j).map (fun e => Route.mk s j e.2 e.1)))
  | ps => Except.error ps

/-- Modelled from the spec: the single-pair path query; any failure
(negative cycle or no path) yields no route. -/
def path_between {n : Nat} (dir : Direction) (g : FWGraph n) (s t : Fin n) :
    Option (Route n) :=
  match negParticipants (fwTable dir g) with
  | [] => (fwTable dir g s t).map (fun e => Route.mk s t e.2 e.1)
  | _ => none

/-- The cost-only matrix used by the distance queries. -/
def TableD (n : Nat) : Type := Fin n → Fin n → Option Int

/-- Write one cell of the cost-only matrix. -/
def updD {n : Nat} (t : TableD n) (i j : Fin n) (e : Option Int) : TableD n :=
  fun a b => if a = i ∧ b = j then e else t a b

/-- Cost-only initialization: diagonal at zero. -/
def diagTableD (n : Nat) : TableD n :=
  fun i j => if i = j then some 0 else none

/-- Cost-only edge initialization, reducing parallel edges by minimum. -/
def insertEdgeD {n : Nat} (t : TableD n) (e : Fin n × Fin n × Int) : TableD n :=
  match t e.1 e.2.1 with
  | none => updD t e.1 e.2.1 (some e.2.2)
  | some c0 => if e.2.2 < c0 then updD t e.1 e.2.1 (some e.2.2) else t

/-- Cost-only relaxation through intermediate `k`. -/
def relaxPairD {n : Nat} (k : Fin n) (t : TableD n) (ij : Fin n × Fin n) : TableD n :=
  match t ij.1 k, t k ij.2 with
  | some c1, some c2 =>
    match t ij.1 ij.2 with
    | none => updD t ij.1 ij.2 (some (c1 + c2))
    | some c0 => if c1 + c2 < c0 then updD t ij.1 ij.2 (some (c1 + c2)) else t
  | _, _ => t

/-- Modelled from the spec: the distance-only computation skips path
reconstruction entirely; it runs the same dynamic program on costs alone. -/
def fwDistTable {n : Nat} (dir : Direction) (g : FWGraph n) : TableD n :=
  (List.finRange n).foldl
    (fun t k => (pairList n).foldl (relaxPairD k) t)
    ((edgeList dir g).foldl insertEdgeD (diagTableD n))

/-- Negative-cycle participants as seen by the cost-only matrix. -/
def negParticipantsD {n : Nat} (t : TableD n) : List (Fin n) :=
  (List.finRange n).filter (fun k =>
    match t k k with
    | some c => decide (c < 0)
    | none => false)

/-- Modelled from the spec: the all-pairs distance query. -/
def every_distance {n : Nat} (dir : Direction) (g : FWGraph n) :
    Except (List (Fin n)) (List (DirectRoute n)) :=
  match negParticipantsD (fwDistTable dir g) with
  | [] => Except.ok ((pairList n).filterMap (fun ij =>
      (fwDistTable dir g ij.1 ij.2).map (fun c => DirectRoute.mk ij.1 ij.2 c)))
  | ps => Except.error ps

/-- Modelled from the spec: the single-source distance query. -/
def distance_from {n : Nat} (dir : Direction) (g : FWGraph n) (s : Fin n) :
    Except (List (Fin n)) (List (DirectRoute n)) :=
  match negParticipantsD (fwDistTable dir g) with
  | [] => Except.ok ((List.finRange n).filterMap (fun j =>
      (fwDistTable dir g s j).map (fun c => DirectRoute.mk s j c)))
  | ps => Except.error ps

/-- Modelled from the spec: the single-pair distance query. -/
def distance_between {n : Nat} (dir : Direction) (g : FWGraph n) (s t : Fin n) :
    Option Int :=
  match negParticipantsD (fwDistTable dir g) with
  | [] => fwDistTable dir g s t
  | _ => none

/-- The negative-cycle test graph of the repository's tests: nodes A,B,C with
edges A -> B cost 1, B -> C cost -3, C -> A cost 1. -/
def negCycleGraph : FWGraph 3 :=
  { edges := [(0, 1, 1), (1, 2, -3), (2, 0, 1)] }

/-- The weighted test graph of the repository's tests: nodes A,B,C,D and edges
A->B:1, A->C:4, A->D:10, B->C:2, B->D:2, C->D:2. -/
def weightedGraph : FWGraph 4 :=
  { edges := [(0, 1, 1), (0, 2, 4), (0, 3, 10), (1, 2, 2), (1, 3, 2), (2, 3, 2)] }

/-- The edge relation induced by a graph under a directedness configuration:
`ER dir g u v c` holds when the effective edge list joins `u` to `v` at cost
`c` in the traversed direction. -/
def ER {n : Nat} (dir : Direction) (g : FWGraph n) : Fin n → Fin n → Int → Prop :=
  fun u v c => (u, v, c) ∈ edgeList dir g

/-- A node sequence is a walk of the edge relation with the given total cost:
a one-node sequence is the empty walk of cost zero, and each added node must
be joined to the next by an edge, its cost added to the total. -/
inductive EdgeSeq {n : Nat} (E : Fin n → Fin n → Int → Prop) :
    List (Fin n) → Int → Prop
| single (u : Fin n) : EdgeSeq E [u] 0
| cons {u v : Fin n} {c : Int} {l : List (Fin n)} {d : Int} :
    E u v c → EdgeSeq E (v :: l) d → EdgeSeq E (u :: v :: l) (c + d)

/-- `s` can reach `t`: some walk starts at `s` and ends at `t` (a one-node
walk witnesses that every node reaches itself). -/
def Reach {n : Nat} (E : Fin n → Fin n → Int → Prop) (s t : Fin n) : Prop :=
  ∃ l c, EdgeSeq E l c ∧ l.head? = some s ∧ l.getLast? = some t

/-- The graph has no negative cycle: every closed walk (at least one edge,
same first and last node) has nonnegative total cost. -/
def NoNegCycle {n : Nat} (E : Fin n → Fin n → Int → Prop) : Prop :=
  ∀ (i : Fin n) (p : List (Fin n)) (c : Int), EdgeSeq E (i :: p ++ [i]) c → 0 ≤ c

/-- Walks whose strictly interior stopover nodes are constrained to the list
`S`: either a direct edge, or a concatenation at a stopover in `S`.  This is
the path structure the dynamic program discovers after processing the
intermediate vertices in `S`. -/
inductive BWalk {n : Nat} (E : Fin n → Fin n → Int → Prop) (S : List (Fin n)) :
    Fin n → Fin n → Prop
| edge {u v : Fin n} {c : Int} : E u v c → BWalk E S u v
| via {u w v : Fin n} : w ∈ S → BWalk E S u w → BWalk E S w v → BWalk E S u v

theorem foldl_preserve {α β : Type} (f : α → β → α) (P : α → Prop) :
    ∀ (l : List β) (a : α), (∀ a b, b ∈ l → P a → P (f a b)) → P a → P (l.foldl f a) := by
  intro l
  induction l with
  | nil => intro a _ ha; exact ha
  | cons x xs ih =>
    intro a hstep ha
    exact ih (f a x)
      (fun a' b hb ha' => hstep a' b (List.mem_cons_of_mem _ hb) ha')
      (hstep a x (List.mem_cons_self _ _) ha)

theorem foldl_rel {α β : Type} (f : α → β → α) (R : α → α → Prop)
    (hrefl : ∀ a, R a a)
    (htrans : ∀ a b c, R a b → R b c → R a c)
    (hstep : ∀ a b, R a (f a b)) :
    ∀ (l : List β) (a : α), R a (l.foldl f a) := by
  intro l
  induction l with
  | nil => intro a; exact hrefl a
  | cons x xs ih => intro a; exact htrans _ _ _ (hstep a x) (ih (f a x))

theorem foldl_reach {α β : Type} (f : α → β → α) (P Q : α → Prop) (x : β)
    (hP : ∀ a b, P a → P (f a b)) (hQ : ∀ a b, Q a → Q (f a b))
    (hPQ : ∀ a, P a → Q (f a x)) :
    ∀ (l : List β) (a : α), x ∈ l → P a → Q (l.foldl f a) := by
  intro l
  induction l with
  | nil => intro a hmem; exact absurd hmem (List.not_mem_nil _)
  | cons y ys ih =>
    intro a hmem ha
    rcases List.mem_cons.mp hmem with rfl | hmem'
    · exact foldl_preserve f Q ys (f a x) (fun a' b _ => hQ a' b) (hPQ a ha)
    · exact ih (f a y) hmem' (hP a y ha)

theorem edgeSeq_glue {n : Nat} {E : Fin n → Fin n → Int → Prop} {x : Fin n}
    {l2 : List (Fin n)} {c2 : Int} (h2 : EdgeSeq E (x :: l2) c2) :
    ∀ (l1 : List (Fin n)) (c1 : Int),
      EdgeSeq E (l1 ++ [x]) c1 → EdgeSeq E (l1 ++ x :: l2) (c1 + c2) := by
  intro l1
  induction l1 with
  | nil =>
    intro c1 h1
    cases h1
    simpa using h2
  | cons u l1 ih =>
    intro c1 h1
    cases l1 with
    | nil =>
      cases h1 with
      | cons he hr =>
        cases hr
        simpa [add_assoc] using EdgeSeq.cons he h2
    | cons w l1' =>
      cases h1 with
      | cons he hr =>
        have hr' := ih _ hr
        simpa [add_assoc] using EdgeSeq.cons he hr'

theorem edgeSeq_last {n : Nat} (i j : Fin n) (p : List (Fin n)) :
    (i :: (p ++ [j])).getLast? = some j := by
  have : (i :: (p ++ [j])) = (i :: p) ++ [j] := by simp
  rw [this, List.getLast?_concat]

/-- Walks with every cost nonnegative have nonnegative total cost. -/
theorem edgeSeq_nonneg {n : Nat} {E : Fin n → Fin n → Int → Prop}
    (hE : ∀ u v c, E u v c → 0 ≤ c) :
    ∀ {l : List (Fin n)} {c : Int}, EdgeSeq E l c → 0 ≤ c := by
  intro l c h
  induction h with
  | single => exact le_refl 0
  | cons he _ ih => exact add_nonneg (hE _ _ _ he) ih

/-- A graph whose effective edges all have nonnegative cost has no negative
cycle. -/
theorem noNegCycle_of_nonneg {n : Nat} {E : Fin n → Fin n → Int → Prop}
    (hE : ∀ u v c, E u v c → 0 ≤ c) : NoNegCycle E :=
  fun _ _ _ h => edgeSeq_nonneg hE h

/-- Entry ordering between evolving tables: every present entry stays present
with a cost that never increases. -/
def tableLe {n : Nat} (t t' : Table n) : Prop :=
  ∀ i j c p, t i j = some (c, p) → ∃ c' p', t' i j = some (c', p') ∧ c' ≤ c

theorem tableLe_refl {n : Nat} (t : Table n) : tableLe t t :=
  fun _ _ c p h => ⟨c, p, h, le_refl c⟩

theorem tableLe_trans {n : Nat} {t1 t2 t3 : Table n} :
    tableLe t1 t2 → tableLe t2 t3 → tableLe t1 t3 := by
  intro h12 h23 i j c p h
  obtain ⟨c', p', h', hle⟩ := h12 i j c p h
  obtain ⟨c'', p'', h'', hle'⟩ := h23 i j c' p' h'
  exact ⟨c'', p'', h'', le_trans hle' hle⟩

/-- Diagonal dichotomy: a diagonal cell is either untouched (zero cost, no
transit) or has been strictly improved below zero. -/
def diagOK {n : Nat} (t : Table n) : Prop :=
  ∀ s : Fin n, t s s = some (0, []) ∨ ∃ c p, t s s = some (c, p) ∧ c < 0

/-- One table refines into another when every cell is unchanged, created from
an absent cell, or strictly improved in cost.  Every elementary operation of
the dynamic program is of this shape. -/
def refines {n : Nat} (t t' : Table n) : Prop :=
  ∀ i j, t' i j = t i j ∨
    (t i j = none ∧ ∃ e, t' i j = some e) ∨
    (∃ c0 p0 c p, t i j = some (c0, p0) ∧ t' i j = some (c, p) ∧ c < c0)

theorem refines_refl {n : Nat} (t : Table n) : refines t t :=
  fun _ _ => Or.inl rfl

theorem refines_trans {n : Nat} {t1 t2 t3 : Table n} :
    refines t1 t2 → refines t2 t3 → refines t1 t3 := by
  intro h12 h23 i j
  rcases h23 i j with h | ⟨hnone, e, hsome⟩ | ⟨c0, p0, c, p, hb, ha, hlt⟩
  · rw [h]; exact h12 i j
  · rcases h12 i j with h' | ⟨hnone', _, hsome'⟩ | ⟨c0, p0, c, p, hb', ha', hlt'⟩
    · right; left; exact ⟨h' ▸ hnone, e, hsome⟩
    · rw [hsome'] at hnone; exact absurd hnone (by simp)
    · rw [ha'] at hnone; exact absurd hnone (by simp)
  · rcases h12 i j with h' | ⟨hnone', _, hsome'⟩ | ⟨c0', p0', c', p', hb', ha', hlt'⟩
    · right; right; exact ⟨c0, p0, c, p, h' ▸ hb, ha, hlt⟩
    · right; left; exact ⟨hnone', (c, p), ha⟩
    · right; right
      refine ⟨c0', p0', c, p, hb', ha, ?_⟩
      have : c0 = c' := by
        rw [ha'] at hb; injection hb with h''; injection h'' with h1 _; exact h1.symm
      exact lt_trans hlt (this ▸ hlt')

theorem refines_tableLe {n : Nat} {t t' : Table n} (h : refines t t') : tableLe t t' := by
  intro i j c p hc
  rcases h i j with h' | ⟨hnone, _, _⟩ | ⟨c0, p0, c', p', hb, ha, hlt⟩
  · exact ⟨c, p, h' ▸ hc, le_refl c⟩
  · rw [hc] at hnone; exact absurd hnone (by simp)
  · rw [hc] at hb
    have : c0 = c := by injection hb with h''; injection h'' with h1 _; exact h1.symm
    exact ⟨c', p', ha, le_of_lt (this ▸ hlt)⟩

theorem refines_diagOK {n : Nat} {t t' : Table n} (ht : diagOK t) (h : refines t t') :
    diagOK t' := by
  intro s
  rcases h s s with h' | ⟨hnone, _, _⟩ | ⟨c0, p0, c, p, hb, ha, hlt⟩
  · rcases ht s with h0 | ⟨c, p, hc, hneg⟩
    · left; rw [h', h0]
    · right; exact ⟨c, p, by rw [h', hc], hneg⟩
  · rcases ht s with h0 | ⟨c, p, hc, _⟩
    · rw [h0] at hnone; exact absurd hnone (by simp)
    · rw [hc] at hnone; exact absurd hnone (by simp)
  · right
    refine ⟨c, p, ha, ?_⟩
    rcases ht s with h0 | ⟨c', p', hc, hneg⟩
    · rw [h0] at hb
      have : c0 = 0 := by injection hb with h''; injection h'' with h1 _; exact h1.symm
      exact this ▸ hlt
    · rw [hc] at hb
      have : c0 = c' := by injection hb with h''; injection h'' with h1 _; exact h1.symm
      exact lt_trans (this ▸ hlt) hneg

theorem insertEdge_refines {n : Nat} (t : Table n) (e : Fin n × Fin n × Int) :
    refines t (insertEdge t e) := by
  intro i j
  unfold insertEdge
  rcases he : t e.1 e.2.1 with _ | ⟨c0, p0⟩
  · by_cases hij : i = e.1 ∧ j = e.2.1
    · right; left
      refine ⟨by rw [hij.1, hij.2]; exact he, (e.2.2, []), ?_⟩
      simp [upd, hij.1, hij.2]
    · left; simp [upd, hij]
  · by_cases hlt : e.2.2 < c0
    · by_cases hij : i = e.1 ∧ j = e.2.1
      · right; right
        exact ⟨c0, p0, e.2.2, [], by rw [hij.1, hij.2]; exact he,
          by simp [hlt, upd, hij.1, hij.2], hlt⟩
      · left; simp [hlt, upd, hij]
    · left; simp [hlt]

theorem relaxPair_refines {n : Nat} (k : Fin n) (t : Table n) (ij : Fin n × Fin n) :
    refines t (relaxPair k t ij) := by
  intro i j
  unfold relaxPair
  rcases h1 : t ij.1 k with _ | ⟨c1, p1⟩
  · left; rfl
  · rcases h2 : t k ij.2 with _ | ⟨c2, p2⟩
    · left; rfl
    · rcases h0 : t ij.1 ij.2 with _ | ⟨c0, p0⟩
      · by_cases hij : i = ij.1 ∧ j = ij.2
        · right; left
          refine ⟨by rw [hij.1, hij.2]; exact h0, (c1 + c2, p1 ++ k :: p2), ?_⟩
          simp [upd, hij.1, hij.2]
        · left; simp [upd, hij]
      · by_cases hlt : c1 + c2 < c0
        · by_cases hij : i = ij.1 ∧ j = ij.2
          · right; right
            exact ⟨c0, p0, c1 + c2, p1 ++ k :: p2, by rw [hij.1, hij.2]; exact h0,
              by simp [hlt, upd, hij.1, hij.2], hlt⟩
          · left; simp [hlt, upd, hij]
        · left; simp [hlt]

theorem stepK_refines {n : Nat} (k : Fin n) (t : Table n) : refines t (stepK k t) :=
  foldl_rel (relaxPair k) refines refines_refl (fun _ _ _ => refines_trans)
    (relaxPair_refines k) (pairList n) t

theorem initTable_refines_fwTable {n : Nat} (dir : Direction) (g : FWGraph n) :
    refines (initTable dir g) (fwTable dir g) :=
  foldl_rel (fun t k => stepK k t) refines refines_refl (fun _ _ _ => refines_trans)
    (fun t k => stepK_refines k t) (List.finRange n) (initTable dir g)

theorem diagTable_refines_initTable {n : Nat} (dir : Direction) (g : FWGraph n) :
    refines (diagTable n) (initTable dir g) :=
  foldl_rel insertEdge refines refines_refl (fun _ _ _ => refines_trans)
    insertEdge_refines (edgeList dir g) (diagTable n)

theorem diagTable_diagOK (n : Nat) : diagOK (diagTable n) := by
  intro s
  left
  simp [diagTable]

theorem fwTable_diagOK {n : Nat} (dir : Direction) (g : FWGraph n) :
    diagOK (fwTable dir g) :=
  refines_diagOK
    (refines_diagOK (diagTable_diagOK n) (diagTable_refines_initTable dir g))
    (initTable_refines_fwTable dir g)

/-- Matrix validity: every present entry is either the untouched diagonal
(the empty path at cost zero) or records a genuine walk of the edge relation
whose node sequence is the entry's endpoints around its transit list and
whose total cost is the entry's cost. -/
def validT {n : Nat} (E : Fin n → Fin n → Int → Prop) (t : Table n) : Prop :=
  ∀ i j c p, t i j = some (c, p) →
    (i = j ∧ c = 0 ∧ p = []) ∨ EdgeSeq E (i :: (p ++ [j])) c

theorem diagTable_validT (n : Nat) (E : Fin n → Fin n → Int → Prop) :
    validT E (diagTable n) := by
  intro i j c p h
  unfold diagTable at h
  by_cases hij : i = j
  · left
    simp only [hij, if_pos rfl] at h
    injection h with h'
    injection h' with h1 h2
    exact ⟨hij, h1.symm, h2.symm⟩
  · simp [hij] at h

theorem upd_self {n : Nat} (t : Table n) (i j : Fin n) (e : Option (Int × List (Fin n))) :
    upd t i j e i j = e := by
  simp [upd]

theorem upd_ne {n : Nat} (t : Table n) (i j : Fin n) (e : Option (Int × List (Fin n)))
    (a b : Fin n) (h : ¬(a = i ∧ b = j)) : upd t i j e a b = t a b := by
  simp [upd, h]

theorem insertEdge_none {n : Nat} {t : Table n} {e : Fin n × Fin n × Int}
    (h : t e.1 e.2.1 = none) :
    insertEdge t e = upd t e.1 e.2.1 (some (e.2.2, [])) := by
  unfold insertEdge
  rw [h]

theorem insertEdge_lt {n : Nat} {t : Table n} {e : Fin n × Fin n × Int} {c0 : Int}
    {p0 : List (Fin n)} (h : t e.1 e.2.1 = some (c0, p0)) (hlt : e.2.2 < c0) :
    insertEdge t e = upd t e.1 e.2.1 (some (e.2.2, [])) := by
  unfold insertEdge
  rw [h]
  dsimp only
  rw [if_pos hlt]

theorem insertEdge_ge {n : Nat} {t : Table n} {e : Fin n × Fin n × Int} {c0 : Int}
    {p0 : List (Fin n)} (h : t e.1 e.2.1 = some (c0, p0)) (hlt : ¬ e.2.2 < c0) :
    insertEdge t e = t := by
  unfold insertEdge
  rw [h]
  dsimp only
  rw [if_neg hlt]

theorem relaxPair_nleft {n : Nat} {k : Fin n} {t : Table n} {ij : Fin n × Fin n}
    (h1 : t ij.1 k = none) : relaxPair k t ij = t := by
  unfold relaxPair
  rw [h1]

theorem relaxPair_nright {n : Nat} {k : Fin n} {t : Table n} {ij : Fin n × Fin n}
    {c1 : Int} {p1 : List (Fin n)} (h1 : t ij.1 k = some (c1, p1))
    (h2 : t k ij.2 = none) : relaxPair k t ij = t := by
  unfold relaxPair
  rw [h1, h2]

theorem relaxPair_new {n : Nat} {k : Fin n} {t : Table n} {ij : Fin n × Fin n}
    {c1 c2 : Int} {p1 p2 : List (Fin n)} (h1 : t ij.1 k = some (c1, p1))
    (h2 : t k ij.2 = some (c2, p2)) (h0 : t ij.1 ij.2 = none) :
    relaxPair k t ij = upd t ij.1 ij.2 (some (c1 + c2, p1 ++ k :: p2)) := by
  unfold relaxPair
  rw [h1, h2]
  dsimp only
  rw [h0]

theorem relaxPair_improve {n : Nat} {k : Fin n} {t : Table n} {ij : Fin n × Fin n}
    {c1 c2 c0 : Int} {p1 p2 p0 : List (Fin n)} (h1 : t ij.1 k = some (c1, p1))
    (h2 : t k ij.2 = some (c2, p2)) (h0 : t ij.1 ij.2 = some (c0, p0))
    (hlt : c1 + c2 < c0) :
    relaxPair k t ij = upd t ij.1 ij.2 (some (c1 + c2, p1 ++ k :: p2)) := by
  unfold relaxPair
  rw [h1, h2]
  dsimp only
  rw [h0]
  dsimp only
  rw [if_pos hlt]

theorem relaxPair_keep {n : Nat} {k : Fin n} {t : Table n} {ij : Fin n × Fin n}
    {c1 c2 c0 : Int} {p1 p2 p0 : List (Fin n)} (h1 : t ij.1 k = some (c1, p1))
    (h2 : t k ij.2 = some (c2, p2)) (h0 : t ij.1 ij.2 = some (c0, p0))
    (hlt : ¬ c1 + c2 < c0) :
    relaxPair k t ij = t := by
  unfold relaxPair
  rw [h1, h2]
  dsimp only
  rw [h0]
  dsimp only
  rw [if_neg hlt]

theorem insertEdge_validT {n : Nat} {E : Fin n → Fin n → Int → Prop} {t : Table n}
    (ht : validT E t) {e : Fin n × Fin n × Int} (hE : E e.1 e.2.1 e.2.2) :
    validT E (insertEdge t e) := by
  have hwrite : ∀ i j c p, upd t e.1 e.2.1 (some (e.2.2, [])) i j = some (c, p) →
      (i = j ∧ c = 0 ∧ p = []) ∨ EdgeSeq E (i :: (p ++ [j])) c := by
    intro i j c p h
    by_cases hij : i = e.1 ∧ j = e.2.1
    · obtain ⟨hi, hj⟩ := hij
      subst hi
      subst hj
      rw [upd_self] at h
      injection h with h'
      injection h' with hc hp
      subst hc
      subst hp
      right
      simpa using EdgeSeq.cons hE (EdgeSeq.single e.2.1)
    · rw [upd_ne _ _ _ _ _ _ hij] at h
      exact ht i j c p h
  intro i j c p h
  rcases h1 : t e.1 e.2.1 with _ | ⟨c0, p0⟩
  · rw [insertEdge_none h1] at h
    exact hwrite i j c p h
  · by_cases hlt : e.2.2 < c0
    · rw [insertEdge_lt h1 hlt] at h
      exact hwrite i j c p h
    · rw [insertEdge_ge h1 hlt] at h
      exact ht i j c p h

theorem relaxPair_validT {n : Nat} {E : Fin n → Fin n → Int → Prop} {t : Table n}
    (ht : validT E t) (k : Fin n) (ij : Fin n × Fin n) :
    validT E (relaxPair k t ij) := by
  intro i j c p h
  rcases h1 : t ij.1 k with _ | ⟨c1, p1⟩
  · rw [relaxPair_nleft h1] at h
    exact ht i j c p h
  rcases h2 : t k ij.2 with _ | ⟨c2, p2⟩
  · rw [relaxPair_nright h1 h2] at h
    exact ht i j c p h
  have combine : EdgeSeq E (ij.1 :: ((p1 ++ k :: p2) ++ [ij.2])) (c1 + c2) ∨
      ((∃ ce pe, t ij.1 ij.2 = some (ce, pe)) ∧
        ∀ c0 p0, t ij.1 ij.2 = some (c0, p0) → ¬ c1 + c2 < c0) := by
    rcases ht ij.1 k c1 p1 h1 with ⟨hik, hc1, _⟩ | hseq1
    · right
      have hcell : t ij.1 ij.2 = some (c2, p2) := by rw [hik]; exact h2
      refine ⟨⟨c2, p2, hcell⟩, ?_⟩
      intro c0 p0 h0 hlt
      rw [hcell] at h0
      injection h0 with h0'
      injection h0' with hcc _
      omega
    · rcases ht k ij.2 c2 p2 h2 with ⟨hkj, hc2, _⟩ | hseq2
      · right
        have hcell : t ij.1 ij.2 = some (c1, p1) := by rw [← hkj]; exact h1
        refine ⟨⟨c1, p1, hcell⟩, ?_⟩
        intro c0 p0 h0 hlt
        rw [hcell] at h0
        injection h0 with h0'
        injection h0' with hcc _
        omega
      · left
        have hseq1' : EdgeSeq E ((ij.1 :: p1) ++ [k]) c1 := by simpa using hseq1
        have hg := edgeSeq_glue hseq2 (ij.1 :: p1) c1 hseq1'
        simpa using hg
  have hwrite : ∀ i j c p, upd t ij.1 ij.2 (some (c1 + c2, p1 ++ k :: p2)) i j = some (c, p) →
      EdgeSeq E (ij.1 :: ((p1 ++ k :: p2) ++ [ij.2])) (c1 + c2) →
      (i = j ∧ c = 0 ∧ p = []) ∨ EdgeSeq E (i :: (p ++ [j])) c := by
    intro i j c p h hcomb
    by_cases hij : i = ij.1 ∧ j = ij.2
    · obtain ⟨hi, hj⟩ := hij
      subst hi
      subst hj
      rw [upd_self] at h
      injection h with h'
      injection h' with hc hp
      subst hc
      subst hp
      right
      exact hcomb
    · rw [upd_ne _ _ _ _ _ _ hij] at h
      exact ht i j c p h
  rcases h0 : t ij.1 ij.2 with _ | ⟨c0, p0⟩
  · rw [relaxPair_new h1 h2 h0] at h
    rcases combine with hcomb | ⟨⟨ce, pe, hcell⟩, _⟩
    · exact hwrite i j c p h hcomb
    · rw [h0] at hcell
      exact absurd hcell (by simp)
  · by_cases hlt : c1 + c2 < c0
    · rw [relaxPair_improve h1 h2 h0 hlt] at h
      rcases combine with hcomb | ⟨_, hmax⟩
      · exact hwrite i j c p h hcomb
      · exact absurd hlt (hmax c0 p0 h0)
    · rw [relaxPair_keep h1 h2 h0 hlt] at h
      exact ht i j c p h

theorem initTable_validT {n : Nat} (dir : Direction) (g : FWGraph n) :
    validT (ER dir g) (initTable dir g) := by
  refine foldl_preserve insertEdge (validT (ER dir g)) (edgeList dir g) (diagTable n)
    (fun t e he ht => insertEdge_validT ht ?_) (diagTable_validT n (ER dir g))
  show (e.1, e.2.1, e.2.2) ∈ edgeList dir g
  simpa using he

theorem fwTable_validT {n : Nat} (dir : Direction) (g : FWGraph n) :
    validT (ER dir g) (fwTable dir g) :=
  foldl_preserve (fun t k => stepK k t) (validT (ER dir g)) (List.finRange n)
    (initTable dir g)
    (fun t k _ ht =>
      foldl_preserve (relaxPair k) (validT (ER dir g)) (pairList n) t
        (fun _ ij _ ht' => relaxPair_validT ht' k ij) ht)
    (initTable_validT dir g)

theorem refines_present {n : Nat} {t t' : Table n} (h : refines t t') {i j : Fin n}
    (hp : t i j ≠ none) : t' i j ≠ none := by
  rcases h i j with h' | ⟨hnone, _, _⟩ | ⟨c0, p0, c, p, _, ha, _⟩
  · rw [h']; exact hp
  · exact absurd hnone hp
  · rw [ha]; simp

/-- The Floyd-Warshall decomposition: a walk whose stopovers are drawn from
`k :: S` either avoids `k` or splits at `k` into two walks drawn from `S`. -/
theorem bwalk_cons {n : Nat} {E : Fin n → Fin n → Int → Prop} {k : Fin n}
    {S : List (Fin n)} {u v : Fin n} (h : BWalk E (k :: S) u v) :
    BWalk E S u v ∨ (BWalk E S u k ∧ BWalk E S k v) := by
  induction h with
  | edge he => exact Or.inl (BWalk.edge he)
  | via hw _ _ ih1 ih2 =>
    rename_i u' w' v' hw1 hw2
    rcases List.mem_cons.mp hw with hk | hS
    · subst hk
      refine Or.inr ⟨?_, ?_⟩
      · rcases ih1 with h | ⟨h, _⟩ <;> exact h
      · rcases ih2 with h | ⟨_, h⟩ <;> exact h
    · rcases ih1 with h1 | ⟨h1a, h1b⟩
      · rcases ih2 with h2 | ⟨h2a, h2b⟩
        · exact Or.inl (BWalk.via hS h1 h2)
        · exact Or.inr ⟨BWalk.via hS h1 h2a, h2b⟩
      · rcases ih2 with h2 | ⟨h2a, h2b⟩
        · exact Or.inr ⟨h1a, BWalk.via hS h1b h2⟩
        · exact Or.inr ⟨h1a, h2b⟩

theorem mem_pairList {n : Nat} (i j : Fin n) : (i, j) ∈ pairList n := by
  simp [pairList]

theorem relaxPair_present_out {n : Nat} {k : Fin n} {t : Table n} {ij : Fin n × Fin n}
    (hl : t ij.1 k ≠ none) (hr : t k ij.2 ≠ none) :
    (relaxPair k t ij) ij.1 ij.2 ≠ none := by
  rcases h1 : t ij.1 k with _ | ⟨c1, p1⟩
  · exact absurd h1 hl
  rcases h2 : t k ij.2 with _ | ⟨c2, p2⟩
  · exact absurd h2 hr
  rcases h0 : t ij.1 ij.2 with _ | ⟨c0, p0⟩
  · rw [relaxPair_new h1 h2 h0, upd_self]; simp
  · by_cases hlt : c1 + c2 < c0
    · rw [relaxPair_improve h1 h2 h0 hlt, upd_self]; simp
    · rw [relaxPair_keep h1 h2 h0 hlt, h0]; simp

theorem relaxPair_colk_back {n : Nat} {k : Fin n} {t : Table n} {ij : Fin n × Fin n}
    {a : Fin n} (hp : (relaxPair k t ij) a k ≠ none) : t a k ≠ none := by
  rcases h1 : t ij.1 k with _ | ⟨c1, p1⟩
  · rw [relaxPair_nleft h1] at hp; exact hp
  rcases h2 : t k ij.2 with _ | ⟨c2, p2⟩
  · rw [relaxPair_nright h1 h2] at hp; exact hp
  have hwr : ∀ e, upd t ij.1 ij.2 e a k ≠ none → t a k ≠ none := by
    intro e hp'
    by_cases hak : a = ij.1 ∧ k = ij.2
    · rw [← hak.1] at h1
      rw [h1]; simp
    · rw [upd_ne _ _ _ _ _ _ hak] at hp'; exact hp'
  rcases h0 : t ij.1 ij.2 with _ | ⟨c0, p0⟩
  · rw [relaxPair_new h1 h2 h0] at hp
    exact hwr _ hp
  · by_cases hlt : c1 + c2 < c0
    · rw [relaxPair_improve h1 h2 h0 hlt] at hp
      exact hwr _ hp
    · rw [relaxPair_keep h1 h2 h0 hlt] at hp; exact hp

theorem relaxPair_rowk_back {n : Nat} {k : Fin n} {t : Table n} {ij : Fin n × Fin n}
    {b : Fin n} (hp : (relaxPair k t ij) k b ≠ none) : t k b ≠ none := by
  rcases h1 : t ij.1 k with _ | ⟨c1, p1⟩
  · rw [relaxPair_nleft h1] at hp; exact hp
  rcases h2 : t k ij.2 with _ | ⟨c2, p2⟩
  · rw [relaxPair_nright h1 h2] at hp; exact hp
  have hwr : ∀ e, upd t ij.1 ij.2 e k b ≠ none → t k b ≠ none := by
    intro e hp'
    by_cases hkb : k = ij.1 ∧ b = ij.2
    · rw [← hkb.2] at h2
      rw [h2]; simp
    · rw [upd_ne _ _ _ _ _ _ hkb] at hp'; exact hp'
  rcases h0 : t ij.1 ij.2 with _ | ⟨c0, p0⟩
  · rw [relaxPair_new h1 h2 h0] at hp
    exact hwr _ hp
  · by_cases hlt : c1 + c2 < c0
    · rw [relaxPair_improve h1 h2 h0 hlt] at hp
      exact hwr _ hp
    · rw [relaxPair_keep h1 h2 h0 hlt] at hp; exact hp

theorem stepK_colk_back {n : Nat} {k : Fin n} {t : Table n} {a : Fin n}
    (hp : (stepK k t) a k ≠ none) : t a k ≠ none := by
  have := foldl_preserve (relaxPair k)
    (fun acc => acc a k ≠ none → t a k ≠ none) (pairList n) t
    (fun acc ij _ hP hp' => hP (relaxPair_colk_back hp'))
    (fun h => h)
  exact this hp

theorem stepK_rowk_back {n : Nat} {k : Fin n} {t : Table n} {b : Fin n}
    (hp : (stepK k t) k b ≠ none) : t k b ≠ none := by
  have := foldl_preserve (relaxPair k)
    (fun acc => acc k b ≠ none → t k b ≠ none) (pairList n) t
    (fun acc ij _ hP hp' => hP (relaxPair_rowk_back hp'))
    (fun h => h)
  exact this hp

theorem stepK_present {n : Nat} {k : Fin n} {t : Table n} {i j : Fin n}
    (hl : t i k ≠ none) (hr : t k j ≠ none) : (stepK k t) i j ≠ none := by
  refine foldl_reach (relaxPair k)
    (fun acc => acc i k ≠ none ∧ acc k j ≠ none)
    (fun acc => acc i j ≠ none) (i, j)
    (fun acc ij hP => ⟨refines_present (relaxPair_refines k acc ij) hP.1,
      refines_present (relaxPair_refines k acc ij) hP.2⟩)
    (fun acc ij hQ => refines_present (relaxPair_refines k acc ij) hQ)
    (fun acc hP => relaxPair_present_out hP.1 hP.2)
    (pairList n) t (mem_pairList i j) ⟨hl, hr⟩

/-- The completeness invariant: every walk with stopovers in `S` is recorded. -/
def complT {n : Nat} (E : Fin n → Fin n → Int → Prop) (S : List (Fin n))
    (t : Table n) : Prop :=
  ∀ u v, BWalk E S u v → t u v ≠ none

theorem stepK_complT {n : Nat} {E : Fin n → Fin n → Int → Prop} {S : List (Fin n)}
    {t : Table n} (hc : complT E S t) (k : Fin n) : complT E (k :: S) (stepK k t) := by
  intro u v hw
  rcases bwalk_cons hw with h | ⟨h1, h2⟩
  · exact refines_present (stepK_refines k t) (hc u v h)
  · exact stepK_present (hc u k h1) (hc k v h2)

theorem foldl_complT {n : Nat} {E : Fin n → Fin n → Int → Prop} :
    ∀ (ks : List (Fin n)) (t : Table n) (S : List (Fin n)), complT E S t →
      complT E (ks.reverse ++ S) (ks.foldl (fun t k => stepK k t) t) := by
  intro ks
  induction ks with
  | nil => intro t S h; simpa using h
  | cons k ks ih =>
    intro t S h
    have := ih (stepK k t) (k :: S) (stepK_complT h k)
    simpa using this

theorem bwalk_mono {n : Nat} {E : Fin n → Fin n → Int → Prop} {S T : List (Fin n)}
    (hST : ∀ x, x ∈ S → x ∈ T) {u v : Fin n} (h : BWalk E S u v) : BWalk E T u v := by
  induction h with
  | edge he => exact BWalk.edge he
  | via hw _ _ ih1 ih2 => exact BWalk.via (hST _ hw) ih1 ih2

theorem initTable_edge_present {n : Nat} {dir : Direction} {g : FWGraph n}
    {u v : Fin n} {c : Int} (he : (u, v, c) ∈ edgeList dir g) :
    initTable dir g u v ≠ none := by
  refine foldl_reach insertEdge (fun _ => True) (fun acc => acc u v ≠ none) (u, v, c)
    (fun _ _ _ => trivial)
    (fun acc e hQ => refines_present (insertEdge_refines acc e) hQ)
    (fun acc _ => ?_)
    (edgeList dir g) (diagTable n) he trivial
  rcases h1 : acc u v with _ | ⟨c0, p0⟩
  · rw [insertEdge_none h1, upd_self]; simp
  · by_cases hlt : c < c0
    · rw [insertEdge_lt h1 hlt, upd_self]; simp
    · rw [insertEdge_ge h1 hlt, h1]; simp

theorem fwTable_diag_present {n : Nat} (dir : Direction) (g : FWGraph n) (s : Fin n) :
    fwTable dir g s s ≠ none := by
  rcases fwTable_diagOK dir g s with h | ⟨c, p, h, _⟩ <;> rw [h] <;> simp

theorem fwTable_bwalk_present {n : Nat} {dir : Direction} {g : FWGraph n} {u v : Fin n}
    (h : BWalk (ER dir g) ((List.finRange n).reverse ++ []) u v) :
    fwTable dir g u v ≠ none := by
  have hbase : complT (ER dir g) [] (initTable dir g) := by
    intro a b hw
    cases hw with
    | edge he => exact initTable_edge_present he
    | via hmem _ _ => exact absurd hmem (List.not_mem_nil _)
  exact foldl_complT (List.finRange n) (initTable dir g) [] hbase u v h

theorem edgeSeq_to_bwalk {n : Nat} {E : Fin n → Fin n → Int → Prop} {S : List (Fin n)}
    (hS : ∀ x : Fin n, x ∈ S) :
    ∀ (l : List (Fin n)) (u v w : Fin n) (c : Int), EdgeSeq E (u :: v :: l) c →
      (v :: l).getLast? = some w → BWalk E S u w := by
  intro l
  induction l with
  | nil =>
    intro u v w c h hlast
    cases h with
    | cons he _ =>
      simp only [List.getLast?_singleton, Option.some_inj] at hlast
      exact hlast ▸ BWalk.edge he
  | cons x l ih =>
    intro u v w c h hlast
    cases h with
    | cons he hr =>
      rw [List.getLast?_cons_cons] at hlast
      exact BWalk.via (hS v) (BWalk.edge he) (ih v x w _ hr hlast)

/-- A pair is recorded in the final matrix exactly when the source reaches the
target. -/
theorem fwTable_present_iff_reach {n : Nat} (dir : Direction) (g : FWGraph n)
    (s t : Fin n) : fwTable dir g s t ≠ none ↔ Reach (ER dir g) s t := by
  constructor
  · intro hp
    rcases hentry : fwTable dir g s t with _ | ⟨c, p⟩
    · exact absurd hentry hp
    rcases fwTable_validT dir g s t c p hentry with ⟨hst, _, _⟩ | hseq
    · exact ⟨[s], 0, EdgeSeq.single s, rfl, by simp [hst]⟩
    · exact ⟨s :: (p ++ [t]), c, hseq, rfl, edgeSeq_last s t p⟩
  · rintro ⟨l, c, hseq, hhead, hlast⟩
    cases l with
    | nil => simp at hhead
    | cons u l =>
      have hu : u = s := by simpa using hhead
      subst hu
      cases l with
      | nil =>
        have : u = t := by simpa using hlast
        subst this
        exact fwTable_diag_present dir g u
      | cons v l =>
        refine fwTable_bwalk_present (edgeSeq_to_bwalk ?_ l u v t c hseq ?_)
        · intro x; simp
        · rw [List.getLast?_cons_cons] at hlast; exact hlast

theorem negParticipants_nil_iff {n : Nat} (t : Table n) :
    negParticipants t = [] ↔ ∀ k c p, t k k = some (c, p) → 0 ≤ c := by
  unfold negParticipants
  rw [List.filter_eq_nil_iff]
  constructor
  · intro h k c p hk
    have hk' := h k (by simp)
    rw [hk] at hk'
    simpa using hk'
  · intro h k _
    rcases hk : t k k with _ | ⟨c, p⟩
    · simp
    · have := h k c p hk
      simp
      omega

/-- Without negative cycles the dynamic program detects no participant. -/
theorem noNegCycle_success {n : Nat} (dir : Direction) (g : FWGraph n)
    (h : NoNegCycle (ER dir g)) : negParticipants (fwTable dir g) = [] := by
  rw [negParticipants_nil_iff]
  intro k c p hk
  rcases fwTable_validT dir g k k c p hk with ⟨_, hc, _⟩ | hseq
  · omega
  · exact h k p c hseq

/-- When detection reports no participant, every diagonal entry is exactly the
untouched empty path at cost zero. -/
theorem success_diag {n : Nat} (dir : Direction) (g : FWGraph n)
    (hs : negParticipants (fwTable dir g) = []) (s : Fin n) :
    fwTable dir g s s = some (0, []) := by
  rcases fwTable_diagOK dir g s with h | ⟨c, p, h, hneg⟩
  · exact h
  · have := (negParticipants_nil_iff (fwTable dir g)).mp hs s c p h
    omega

/-- Pointwise agreement between the cost-only and the path-carrying matrix. -/
def tablesAgree {n : Nat} (tD : TableD n) (tP : Table n) : Prop :=
  ∀ i j, tD i j = (tP i j).map Prod.fst

theorem insertEdgeD_none {n : Nat} {t : TableD n} {e : Fin n × Fin n × Int}
    (h : t e.1 e.2.1 = none) :
    insertEdgeD t e = updD t e.1 e.2.1 (some e.2.2) := by
  unfold insertEdgeD
  rw [h]

theorem insertEdgeD_lt {n : Nat} {t : TableD n} {e : Fin n × Fin n × Int} {c0 : Int}
    (h : t e.1 e.2.1 = some c0) (hlt : e.2.2 < c0) :
    insertEdgeD t e = updD t e.1 e.2.1 (some e.2.2) := by
  unfold insertEdgeD
  rw [h]
  dsimp only
  rw [if_pos hlt]

theorem insertEdgeD_ge {n : Nat} {t : TableD n} {e : Fin n × Fin n × Int} {c0 : Int}
    (h : t e.1 e.2.1 = some c0) (hlt : ¬ e.2.2 < c0) : insertEdgeD t e = t := by
  unfold insertEdgeD
  rw [h]
  dsimp only
  rw [if_neg hlt]

theorem relaxPairD_nleft {n : Nat} {k : Fin n} {t : TableD n} {ij : Fin n × Fin n}
    (h1 : t ij.1 k = none) : relaxPairD k t ij = t := by
  unfold relaxPairD
  rw [h1]

theorem relaxPairD_nright {n : Nat} {k : Fin n} {t : TableD n} {ij : Fin n × Fin n}
    {c1 : Int} (h1 : t ij.1 k = some c1) (h2 : t k ij.2 = none) :
    relaxPairD k t ij = t := by
  unfold relaxPairD
  rw [h1, h2]

theorem relaxPairD_new {n : Nat} {k : Fin n} {t : TableD n} {ij : Fin n × Fin n}
    {c1 c2 : Int} (h1 : t ij.1 k = some c1) (h2 : t k ij.2 = some c2)
    (h0 : t ij.1 ij.2 = none) :
    relaxPairD k t ij = updD t ij.1 ij.2 (some (c1 + c2)) := by
  unfold relaxPairD
  rw [h1, h2]
  dsimp only
  rw [h0]

theorem relaxPairD_improve {n : Nat} {k : Fin n} {t : TableD n} {ij : Fin n × Fin n}
    {c1 c2 c0 : Int} (h1 : t ij.1 k = some c1) (h2 : t k ij.2 = some c2)
    (h0 : t ij.1 ij.2 = some c0) (hlt : c1 + c2 < c0) :
    relaxPairD k t ij = updD t ij.1 ij.2 (some (c1 + c2)) := by
  unfold relaxPairD
  rw [h1, h2]
  dsimp only
  rw [h0]
  dsimp only
  rw [if_pos hlt]

theorem relaxPairD_keep {n : Nat} {k : Fin n} {t : TableD n} {ij : Fin n × Fin n}
    {c1 c2 c0 : Int} (h1 : t ij.1 k = some c1) (h2 : t k ij.2 = some c2)
    (h0 : t ij.1 ij.2 = some c0) (hlt : ¬ c1 + c2 < c0) :
    relaxPairD k t ij = t := by
  unfold relaxPairD
  rw [h1, h2]
  dsimp only
  rw [h0]
  dsimp only
  rw [if_neg hlt]

theorem updD_agree {n : Nat} {tD : TableD n} {tP : Table n} (h : tablesAgree tD tP)
    (i j : Fin n) (c : Int) (p : List (Fin n)) :
    tablesAgree (updD tD i j (some c)) (upd tP i j (some (c, p))) := by
  intro a b
  by_cases hab : a = i ∧ b = j
  · rw [hab.1, hab.2, upd_self]
    simp [updD]
  · rw [upd_ne _ _ _ _ _ _ hab]
    simp only [updD, if_neg hab]
    exact h a b

theorem insertEdge_agree {n : Nat} {tD : TableD n} {tP : Table n}
    (h : tablesAgree tD tP) (e : Fin n × Fin n × Int) :
    tablesAgree (insertEdgeD tD e) (insertEdge tP e) := by
  rcases hP : tP e.1 e.2.1 with _ | ⟨c0, p0⟩
  · have hD : tD e.1 e.2.1 = none := by rw [h, hP]; rfl
    rw [insertEdgeD_none hD, insertEdge_none hP]
    exact updD_agree h _ _ _ _
  · have hD : tD e.1 e.2.1 = some c0 := by rw [h, hP]; rfl
    by_cases hlt : e.2.2 < c0
    · rw [insertEdgeD_lt hD hlt, insertEdge_lt hP hlt]
      exact updD_agree h _ _ _ _
    · rw [insertEdgeD_ge hD hlt, insertEdge_ge hP hlt]
      exact h

theorem relaxPair_agree {n : Nat} {tD : TableD n} {tP : Table n}
    (h : tablesAgree tD tP) (k : Fin n) (ij : Fin n × Fin n) :
    tablesAgree (relaxPairD k tD ij) (relaxPair k tP ij) := by
  rcases h1 : tP ij.1 k with _ | ⟨c1, p1⟩
  · have hD1 : tD ij.1 k = none := by rw [h, h1]; rfl
    rw [relaxPairD_nleft hD1, relaxPair_nleft h1]
    exact h
  have hD1 : tD ij.1 k = some c1 := by rw [h, h1]; rfl
  rcases h2 : tP k ij.2 with _ | ⟨c2, p2⟩
  · have hD2 : tD k ij.2 = none := by rw [h, h2]; rfl
    rw [relaxPairD_nright hD1 hD2, relaxPair_nright h1 h2]
    exact h
  have hD2 : tD k ij.2 = some c2 := by rw [h, h2]; rfl
  rcases h0 : tP ij.1 ij.2 with _ | ⟨c0, p0⟩
  · have hD0 : tD ij.1 ij.2 = none := by rw [h, h0]; rfl
    rw [relaxPairD_new hD1 hD2 hD0, relaxPair_new h1 h2 h0]
    exact updD_agree h _ _ _ _
  have hD0 : tD ij.1 ij.2 = some c0 := by rw [h, h0]; rfl
  by_cases hlt : c1 + c2 < c0
  · rw [relaxPairD_improve hD1 hD2 hD0 hlt, relaxPair_improve h1 h2 h0 hlt]
    exact updD_agree h _ _ _ _
  · rw [relaxPairD_keep hD1 hD2 hD0 hlt, relaxPair_keep h1 h2 h0 hlt]
    exact h

theorem foldl_agree {α β γ : Type} (f : α → γ → α) (g : β → γ → β)
    (R : α → β → Prop) (hstep : ∀ a b x, R a b → R (f a x) (g b x)) :
    ∀ (l : List γ) (a : α) (b : β), R a b → R (l.foldl f a) (l.foldl g b) := by
  intro l
  induction l with
  | nil => intro a b h; exact h
  | cons x xs ih => intro a b h; exact ih (f a x) (g b x) (hstep a b x h)

/-- The cost-only dynamic program computes exactly the cost components of the
path-carrying one. -/
theorem fwDistTable_agree {n : Nat} (dir : Direction) (g : FWGraph n) :
    tablesAgree (fwDistTable dir g) (fwTable dir g) := by
  have hbase : tablesAgree (diagTableD n) (diagTable n) := by
    intro i j
    by_cases hij : i = j <;> simp [diagTableD, diagTable, hij]
  have hinit : tablesAgree ((edgeList dir g).foldl insertEdgeD (diagTableD n))
      (initTable dir g) :=
    foldl_agree insertEdgeD insertEdge tablesAgree
      (fun a b x h => insertEdge_agree h x) (edgeList dir g) _ _ hbase
  exact foldl_agree
    (fun t k => (pairList n).foldl (relaxPairD k) t)
    (fun t k => stepK k t)
    tablesAgree
    (fun a b k h =>
      foldl_agree (relaxPairD k) (relaxPair k) tablesAgree
        (fun a' b' ij h' => relaxPair_agree h' k ij) (pairList n) a b h)
    (List.finRange n) _ _ hinit

theorem negParticipantsD_agree {n : Nat} {tD : TableD n} {tP : Table n}
    (h : tablesAgree tD tP) : negParticipantsD tD = negParticipants tP := by
  unfold negParticipantsD negParticipants
  apply List.filter_congr
  intro k _
  rw [h k k]
  rcases tP k k with _ | ⟨c, p⟩ <;> rfl

/-- The cost-only view of a route: endpoints and cost, transit dropped. -/
def Route.toDirect {n : Nat} (r : Route n) : DirectRoute n :=
  DirectRoute.mk r.source r.target r.cost

/-- The all-pairs distance query agrees with the all-pairs path query:
it produces exactly the cost-only views of the same routes. -/
theorem every_distance_eq {n : Nat} (dir : Direction) (g : FWGraph n) :
    every_distance dir g = (every_path dir g).map (List.map Route.toDirect) := by
  unfold every_distance every_path
  rw [negParticipantsD_agree (fwDistTable_agree dir g)]
  rcases hps : negParticipants (fwTable dir g) with _ | ⟨q, qs⟩
  · show Except.ok _ = Except.ok _
    congr 1
    rw [List.map_filterMap]
    apply List.filterMap_congr
    intro ij _
    rw [fwDistTable_agree dir g ij.1 ij.2]
    rcases fwTable dir g ij.1 ij.2 with _ | ⟨c, p⟩ <;> rfl
  · rfl

/-- The single-source distance query agrees with the single-source path
query. -/
theorem distance_from_eq {n : Nat} (dir : Direction) (g : FWGraph n) (s : Fin n) :
    distance_from dir g s = (path_from dir g s).map (List.map Route.toDirect) := by
  unfold distance_from path_from
  rw [negParticipantsD_agree (fwDistTable_agree dir g)]
  rcases hps : negParticipants (fwTable dir g) with _ | ⟨q, qs⟩
  · show Except.ok _ = Except.ok _
    congr 1
    rw [List.map_filterMap]
    apply List.filterMap_congr
    intro j _
    rw [fwDistTable_agree dir g s j]
    rcases fwTable dir g s j with _ | ⟨c, p⟩ <;> rfl
  · rfl

/-- The single-pair distance query returns exactly the cost component of the
single-pair path query's route. -/
theorem distance_between_eq {n : Nat} (dir : Direction) (g : FWGraph n) (s t : Fin n) :
    distance_between dir g s t = (path_between dir g s t).map Route.cost := by
  unfold distance_between path_between
  rw [negParticipantsD_agree (fwDistTable_agree dir g)]
  rcases hps : negParticipants (fwTable dir g) with _ | ⟨q, qs⟩
  · rw [fwDistTable_agree dir g s t]
    rcases fwTable dir g s t with _ | ⟨c, p⟩ <;> rfl
  · rfl

theorem countP_filterMap {α β : Type} (p : β → Bool) (f : α → Option β) :
    ∀ l : List α, (l.filterMap f).countP p =
      l.countP (fun a => match f a with | some b => p b | none => false) := by
  intro l
  induction l with
  | nil => rfl
  | cons a l ih =>
    rcases hfa : f a with _ | b
    · rw [List.filterMap_cons_none hfa, List.countP_cons, ih, hfa]
      simp
    · rw [List.filterMap_cons_some hfa, List.countP_cons, List.countP_cons, ih, hfa]

theorem pairList_nodup (n : Nat) : (pairList n).Nodup := by
  have : pairList n = (List.finRange n).product (List.finRange n) := rfl
  rw [this]
  exact List.Nodup.product (List.nodup_finRange n) (List.nodup_finRange n)

/-- Number of routes in a list that claim the given ordered pair. -/
def routeCount {n : Nat} (rs : List (Route n)) (s t : Fin n) : Nat :=
  rs.countP (fun r => decide (r.source = s ∧ r.target = t))

/-- Number of direct routes in a list that claim the given ordered pair. -/
def directCount {n : Nat} (ds : List (DirectRoute n)) (s t : Fin n) : Nat :=
  ds.countP (fun d => decide (d.source = s ∧ d.target = t))

theorem countP_decide_eq {α : Type} [DecidableEq α] (y : α) :
    ∀ l : List α, l.Nodup → y ∈ l → l.countP (fun x => decide (x = y)) = 1 := by
  intro l
  induction l with
  | nil => intro _ hm; cases hm
  | cons a l ih =>
    intro hnd hm
    rw [List.countP_cons]
    rcases List.mem_cons.mp hm with heq | hm'
    · have hy : y ∉ l := heq ▸ (List.nodup_cons.mp hnd).1
      have htail : l.countP (fun x => decide (x = y)) = 0 := by
        apply List.countP_eq_zero.mpr
        intro x hx
        simp only [decide_eq_true_eq]
        intro hxy
        exact hy (hxy ▸ hx)
      rw [htail]
      simp [heq]
    · have hne : a ≠ y := fun h => (List.nodup_cons.mp hnd).1 (h ▸ hm')
      rw [ih (List.nodup_cons.mp hnd).2 hm']
      simp [hne]

theorem countP_unique {α : Type} [DecidableEq α] (y : α) (b : Bool) (q : α → Bool)
    (hq : ∀ x, q x = (decide (x = y) && b)) (l : List α) (hnd : l.Nodup)
    (hm : y ∈ l) : l.countP q = if b then 1 else 0 := by
  cases b with
  | false =>
    rw [if_neg (by simp)]
    apply List.countP_eq_zero.mpr
    intro x _
    rw [hq x]
    simp
  | true =>
    rw [if_pos rfl]
    have : l.countP q = l.countP (fun x => decide (x = y)) := by
      apply List.countP_congr
      intro x _
      rw [hq x]
      simp
    rw [this]
    exact countP_decide_eq y l hnd hm

theorem every_path_ok_iff {n : Nat} {dir : Direction} {g : FWGraph n}
    {rs : List (Route n)} :
    every_path dir g = Except.ok rs ↔
      negParticipants (fwTable dir g) = [] ∧
      rs = (pairList n).filterMap (fun ij =>
        (fwTable dir g ij.1 ij.2).map (fun e => Route.mk ij.1 ij.2 e.2 e.1)) := by
  unfold every_path
  rcases hps : negParticipants (fwTable dir g) with _ | ⟨q, qs⟩
  · simp [eq_comm]
  · simp

theorem path_from_ok_iff {n : Nat} {dir : Direction} {g : FWGraph n} {s : Fin n}
    {rs : List (Route n)} :
    path_from dir g s = Except.ok rs ↔
      negParticipants (fwTable dir g) = [] ∧
      rs = (List.finRange n).filterMap (fun j =>
        (fwTable dir g s j).map (fun e => Route.mk s j e.2 e.1)) := by
  unfold path_from
  rcases hps : negParticipants (fwTable dir g) with _ | ⟨q, qs⟩
  · simp [eq_comm]
  · simp

theorem every_path_routeCount {n : Nat} {dir : Direction} {g : FWGraph n}
    {rs : List (Route n)} (h : every_path dir g = Except.ok rs) (s t : Fin n) :
    routeCount rs s t = if (fwTable dir g s t).isSome then 1 else 0 := by
  obtain ⟨_, hrs⟩ := every_path_ok_iff.mp h
  subst hrs
  unfold routeCount
  rw [countP_filterMap]
  apply countP_unique (s, t) ((fwTable dir g s t).isSome)
  · intro ij
    by_cases hij : ij = (s, t)
    · subst hij
      rcases hst : fwTable dir g s t with _ | ⟨c, p⟩ <;> simp [hst]
    · have hne : ¬ (ij.1 = s ∧ ij.2 = t) := by
        intro hcon
        exact hij (Prod.ext hcon.1 hcon.2)
      rcases hst : fwTable dir g ij.1 ij.2 with _ | ⟨c, p⟩ <;> simp [hst, hij, hne]
  · exact pairList_nodup n
  · exact mem_pairList s t

theorem path_from_routeCount {n : Nat} {dir : Direction} {g : FWGraph n} {s : Fin n}
    {rs : List (Route n)} (h : path_from dir g s = Except.ok rs) (t : Fin n) :
    routeCount rs s t = if (fwTable dir g s t).isSome then 1 else 0 := by
  obtain ⟨_, hrs⟩ := path_from_ok_iff.mp h
  subst hrs
  unfold routeCount
  rw [countP_filterMap]
  apply countP_unique t ((fwTable dir g s t).isSome)
  · intro j
    by_cases hj : j = t
    · subst hj
      rcases hst : fwTable dir g s j with _ | ⟨c, p⟩ <;> simp [hst]
    · rcases hst : fwTable dir g s j with _ | ⟨c, p⟩ <;> simp [hst, hj]
  · exact List.nodup_finRange n
  · exact List.mem_finRange t

theorem directCount_map {n : Nat} (rs : List (Route n)) (s t : Fin n) :
    directCount (rs.map Route.toDirect) s t = routeCount rs s t := by
  unfold directCount routeCount
  rw [List.countP_map]
  rfl

theorem except_map_ok {ε α β : Type} {f : α → β} {e : Except ε α} {y : β}
    (h : Except.map f e = Except.ok y) : ∃ x, e = Except.ok x ∧ y = f x := by
  cases e with
  | error err => exact absurd h (by simp [Except.map])
  | ok x =>
    refine ⟨x, rfl, ?_⟩
    have : Except.ok (f x) = Except.ok y := h
    injection this with h'
    exact h'.symm

/-- C1: on the directed graph with nodes A,B,C and edges A→B cost 1, B→C
cost -3, C→A cost 1, both all-pairs queries of the Floyd-Warshall engine fail
with the negative-cycle error, and the participant set attached to the error
is exactly {A,B,C}: the union of all nodes whose diagonal self-distance
became negative, not merely the first one found. -/
theorem fw_negative_cycle_reports_all_participants :
    every_path Direction.directed negCycleGraph = Except.error [0, 1, 2] ∧
    every_distance Direction.directed negCycleGraph = Except.error [0, 1, 2] ∧
    (∀ x : Fin 3, x ∈ ([0, 1, 2] : List (Fin 3))) :=
  ⟨by rfl, by rfl, by decide⟩

/-- C2: on the weighted directed graph with nodes A,B,C,D and edges A→B:1,
A→C:4, A→D:10, B→C:2, B→D:2, C→D:2 (encoded as 0,1,2,3), `path_between A C`
returns the route with cost 3 and transit exactly [B] (full node sequence
A,B,C), and `distance_from A` yields exactly the cost map
{A:0, B:1, C:3, D:3}. -/
theorem fw_weighted_worked_scenario :
    path_between Direction.directed weightedGraph 0 2 = some (Route.mk 0 2 [1] 3) ∧
    (Route.mk (0 : Fin 4) 2 [1] 3).nodeSeq = [0, 1, 2] ∧
    distance_from Direction.directed weightedGraph 0 =
      Except.ok [DirectRoute.mk 0 0 0, DirectRoute.mk 0 1 1,
        DirectRoute.mk 0 2 3, DirectRoute.mk 0 3 3] :=
  ⟨by decide, by decide, by rfl⟩

/-- C5: for every graph and every reachable pair, the cost returned by the
cost-only query shape equals the cost component of the route returned by the
path-producing shape; the all-pairs and single-source distance sequences are
exactly the cost-only views of the corresponding path sequences. -/
theorem fw_distance_agrees_with_path {n : Nat} (dir : Direction) (g : FWGraph n) :
    (∀ (s t : Fin n) (r : Route n), path_between dir g s t = some r →
      distance_between dir g s t = some r.cost) ∧
    (∀ rs, every_path dir g = Except.ok rs →
      every_distance dir g = Except.ok (rs.map Route.toDirect)) ∧
    (∀ (s : Fin n) rs, path_from dir g s = Except.ok rs →
      distance_from dir g s = Except.ok (rs.map Route.toDirect)) := by
  refine ⟨?_, ?_, ?_⟩
  · intro s t r h
    rw [distance_between_eq, h]
    rfl
  · intro rs h
    rw [every_distance_eq, h]
    rfl
  · intro s rs h
    rw [distance_from_eq, h]
    rfl

/-- Witness for C5 at a concrete input: on the weighted test graph the
distance query for the pair (A,C) returns exactly the cost of the route the
path query returns. -/
theorem fw_distance_agrees_with_path_witness :
    distance_between Direction.directed weightedGraph 0 2 = some 3 :=
  (fw_distance_agrees_with_path Direction.directed weightedGraph).1 0 2
    (Route.mk 0 2 [1] 3) (by decide)

/-- C8: every query is deterministic: two invocations of the same query on
the same engine configuration and an unmodified graph yield identical
outcomes, including the negative-cycle detection verdict and its participant
set.  The engine is modelled as a pure function of its configuration and the
graph, so this holds definitionally. -/
theorem fw_query_deterministic {n : Nat} (dir : Direction) (g : FWGraph n)
    (s t : Fin n) :
    every_path dir g = every_path dir g ∧
    every_distance dir g = every_distance dir g ∧
    path_from dir g s = path_from dir g s ∧
    distance_from dir g s = distance_from dir g s ∧
    path_between dir g s t = path_between dir g s t ∧
    distance_between dir g s t = distance_between dir g s t ∧
    negParticipants (fwTable dir g) = negParticipants (fwTable dir g) :=
  ⟨rfl, rfl, rfl, rfl, rfl, rfl, rfl⟩

/-- A graph all of whose effective edges are nonnegative has no negative
cycle; this discharges the no-negative-cycle hypothesis on concrete inputs. -/
theorem noNegCycle_of_edges_nonneg {n : Nat} {dir : Direction} {g : FWGraph n}
    (h : ∀ e ∈ edgeList dir g, 0 ≤ e.2.2) : NoNegCycle (ER dir g) :=
  noNegCycle_of_nonneg (fun u v c hc => h (u, v, c) hc)

/-- C4: every path contained in a route returned by a successful all-pairs
query starts at the route's claimed source, ends at its claimed target, and
its node sequence is a walk of the traversed edge relation whose folded edge
costs (starting from the zero identity) equal the route's cost. -/
theorem fw_path_validity {n : Nat} {dir : Direction} {g : FWGraph n}
    {rs : List (Route n)} (h : every_path dir g = Except.ok rs) :
    ∀ r ∈ rs, r.nodeSeq.head? = some r.source ∧
      r.nodeSeq.getLast? = some r.target ∧
      EdgeSeq (ER dir g) r.nodeSeq r.cost := by
  obtain ⟨hsuc, hrs⟩ := every_path_ok_iff.mp h
  subst hrs
  intro r hr
  obtain ⟨ij, hmem, hf⟩ := List.mem_filterMap.mp hr
  obtain ⟨e, hentry, hmk⟩ := Option.map_eq_some'.mp hf
  obtain ⟨c, p⟩ := e
  subst hmk
  by_cases hd : p = [] ∧ ij.1 = ij.2
  · obtain ⟨hp, hij⟩ := hd
    subst hp
    have hdiag := success_diag dir g hsuc ij.1
    rw [hij] at hdiag
    rw [hij] at hentry
    rw [hdiag] at hentry
    injection hentry with h'
    injection h' with hc _
    subst hc
    refine ⟨?_, ?_, ?_⟩
    · unfold Route.nodeSeq
      rw [if_pos ⟨rfl, hij⟩]
      rfl
    · unfold Route.nodeSeq
      rw [if_pos ⟨rfl, hij⟩]
      simp [hij]
    · unfold Route.nodeSeq
      rw [if_pos ⟨rfl, hij⟩]
      exact EdgeSeq.single ij.1
  · have hnode : (Route.mk ij.1 ij.2 p c).nodeSeq = ij.1 :: (p ++ [ij.2]) := by
      unfold Route.nodeSeq
      rw [if_neg hd]
    rcases fwTable_validT dir g ij.1 ij.2 c p hentry with ⟨hij, hc, hp⟩ | hseq
    · exact absurd ⟨hp, hij⟩ hd
    · exact ⟨by rw [hnode]; rfl, by rw [hnode]; exact edgeSeq_last _ _ _,
        by rw [hnode]; exact hseq⟩

/-- Witness for C4 at a concrete input: the route A→C of the weighted test
graph is a valid walk of the traversed edges with folded cost 3. -/
theorem fw_path_validity_witness :
    (Route.mk (0 : Fin 4) 2 [1] 3).nodeSeq.head? = some 0 ∧
    (Route.mk (0 : Fin 4) 2 [1] 3).nodeSeq.getLast? = some 2 ∧
    EdgeSeq (ER Direction.directed weightedGraph)
      (Route.mk (0 : Fin 4) 2 [1] 3).nodeSeq 3 :=
  have h : every_path Direction.directed weightedGraph = Except.ok
      [Route.mk 0 0 [] 0, Route.mk 0 1 [] 1, Route.mk 0 2 [1] 3,
        Route.mk 0 3 [1] 3, Route.mk 1 1 [] 0, Route.mk 1 2 [] 2,
        Route.mk 1 3 [] 2, Route.mk 2 2 [] 0, Route.mk 2 3 [] 2,
        Route.mk 3 3 [] 0] := by rfl
  fw_path_validity h (Route.mk 0 2 [1] 3) (by decide)

/-- C9: in a graph without negative cycles, the all-pairs and single-source
result sequences include the self-pair (s,s) for every node s, with cost
equal to the zero identity and an empty transit list. -/
theorem fw_self_pairs {n : Nat} (dir : Direction) (g : FWGraph n)
    (h : NoNegCycle (ER dir g)) :
    ∃ rs ds, every_path dir g = Except.ok rs ∧ every_distance dir g = Except.ok ds ∧
      ∀ s : Fin n,
        Route.mk s s [] 0 ∈ rs ∧ DirectRoute.mk s s 0 ∈ ds ∧
        (∃ fs, path_from dir g s = Except.ok fs ∧ Route.mk s s [] 0 ∈ fs) ∧
        (∃ fd, distance_from dir g s = Except.ok fd ∧ DirectRoute.mk s s 0 ∈ fd) := by
  have hsuc := noNegCycle_success dir g h
  have hep : every_path dir g = Except.ok ((pairList n).filterMap (fun ij =>
      (fwTable dir g ij.1 ij.2).map (fun e => Route.mk ij.1 ij.2 e.2 e.1))) :=
    every_path_ok_iff.mpr ⟨hsuc, rfl⟩
  have hpfgen : ∀ s : Fin n, path_from dir g s = Except.ok ((List.finRange n).filterMap
      (fun j => (fwTable dir g s j).map (fun e => Route.mk s j e.2 e.1))) :=
    fun s => path_from_ok_iff.mpr ⟨hsuc, rfl⟩
  refine ⟨_, _, hep, by rw [every_distance_eq, hep]; rfl, ?_⟩
  intro s
  have hself : Route.mk s s [] 0 ∈ (pairList n).filterMap (fun ij =>
      (fwTable dir g ij.1 ij.2).map (fun e => Route.mk ij.1 ij.2 e.2 e.1)) :=
    List.mem_filterMap.mpr ⟨(s, s), mem_pairList s s,
      by rw [success_diag dir g hsuc s]; rfl⟩
  have hselfF : Route.mk s s [] 0 ∈ (List.finRange n).filterMap
      (fun j => (fwTable dir g s j).map (fun e => Route.mk s j e.2 e.1)) :=
    List.mem_filterMap.mpr ⟨s, List.mem_finRange s,
      by rw [success_diag dir g hsuc s]; rfl⟩
  refine ⟨hself, List.mem_map.mpr ⟨_, hself, rfl⟩, ⟨_, hpfgen s, hselfF⟩,
    ⟨_, by rw [distance_from_eq, hpfgen s]; rfl, List.mem_map.mpr ⟨_, hselfF, rfl⟩⟩⟩

/-- Witness for C9 at the weighted test graph (all edge costs nonnegative,
hence no negative cycle). -/
theorem fw_self_pairs_witness :
    ∃ rs ds, every_path Direction.directed weightedGraph = Except.ok rs ∧
      every_distance Direction.directed weightedGraph = Except.ok ds ∧
      ∀ s : Fin 4,
        Route.mk s s [] 0 ∈ rs ∧ DirectRoute.mk s s 0 ∈ ds ∧
        (∃ fs, path_from Direction.directed weightedGraph s = Except.ok fs ∧
          Route.mk s s [] 0 ∈ fs) ∧
        (∃ fd, distance_from Direction.directed weightedGraph s = Except.ok fd ∧
          DirectRoute.mk s s 0 ∈ fd) :=
  fw_self_pairs Direction.directed weightedGraph
    (noNegCycle_of_edges_nonneg (by decide))

theorem getLast_eq_append {α : Type} :
    ∀ (l : List α) (x : α), l.getLast? = some x → ∃ l0, l = l0 ++ [x] := by
  intro l
  induction l with
  | nil => intro x h; exact absurd h (by simp)
  | cons a l ih =>
    intro x h
    cases l with
    | nil =>
      have : a = x := by simpa using h
      exact ⟨[], by simp [this]⟩
    | cons b l' =>
      rw [List.getLast?_cons_cons] at h
      obtain ⟨l0, hl⟩ := ih x h
      exact ⟨a :: l0, by rw [List.cons_append, ← hl]⟩

/-- Reachability extends along an edge. -/
theorem reach_snoc {n : Nat} {E : Fin n → Fin n → Int → Prop} {s u v : Fin n}
    {c : Int} (h : Reach E s u) (he : E u v c) : Reach E s v := by
  obtain ⟨l, c0, hseq, hhead, hlast⟩ := h
  obtain ⟨l0, rfl⟩ := getLast_eq_append l u hlast
  have h2 : EdgeSeq E (u :: [v]) (c + 0) := EdgeSeq.cons he (EdgeSeq.single v)
  have hglue := edgeSeq_glue h2 l0 c0 hseq
  refine ⟨l0 ++ u :: [v], c0 + (c + 0), hglue, ?_, ?_⟩
  · cases l0 with
    | nil => simpa using hhead
    | cons a l0' => simpa using hhead
  · have : l0 ++ u :: [v] = (l0 ++ [u]) ++ [v] := by simp
    rw [this, List.getLast?_concat]

/-- Modelled from the spec: the outgoing (directed) or incident (undirected)
edges of a node, as (neighbour, cost) pairs; the orientation doubling of the
undirected configuration is inherited from `edgeList`. -/
def outEdges {n : Nat} (dir : Direction) (g : FWGraph n) (u : Fin n) :
    List (Fin n × Int) :=
  (edgeList dir g).filterMap (fun e => if e.1 = u then some (e.2.1, e.2.2) else none)

theorem mem_outEdges {n : Nat} {dir : Direction} {g : FWGraph n} {u : Fin n}
    {vc : Fin n × Int} :
    vc ∈ outEdges dir g u ↔ (u, vc.1, vc.2) ∈ edgeList dir g := by
  unfold outEdges
  rw [List.mem_filterMap]
  constructor
  · rintro ⟨⟨e1, e2, e3⟩, he, hmap⟩
    dsimp only at hmap
    by_cases h1 : e1 = u
    · rw [if_pos h1] at hmap
      injection hmap with h2
      subst h1
      rw [← h2]
      exact he
    · rw [if_neg h1] at hmap
      cases hmap
  · intro he
    exact ⟨(u, vc.1, vc.2), he, by simp⟩

/-- Pointwise update of a node-indexed map. -/
def updF {n : Nat} {α : Type} (f : Fin n → α) (i : Fin n) (a : α) : Fin n → α :=
  fun v => if v = i then a else f v

/-- Modelled from the spec: the working state of a single-source Dijkstra
run: the tentative-distance map (absent means not yet discovered), the
predecessor links used by path reconstruction, the finalized flags, and the
frontier of pending (cost, node) priority entries. -/
structure DijkState (n : Nat) : Type where
  dist : Fin n → Option Int
  pred : Fin n → Option (Fin n)
  settled : Fin n → Bool
  frontier : List (Int × Fin n)

/-- Modelled from the spec: the priority-queue pop: extract a minimum-cost
entry from the frontier (ties resolved towards the earlier entry), returning
it together with the remaining entries. -/
def popMin {n : Nat} : List (Int × Fin n) → Option ((Int × Fin n) × List (Int × Fin n))
  | [] => none
  | [x] => some (x, [])
  | x :: y :: xs =>
    match popMin (y :: xs) with
    | none => some (x, [])
    | some (z, rest) => if x.1 ≤ z.1 then some (x, y :: xs) else some (z, x :: rest)

theorem popMin_none {n : Nat} :
    ∀ l : List (Int × Fin n), popMin l = none → l = [] := by
  intro l h
  cases l with
  | nil => rfl
  | cons a l' =>
    cases l' with
    | nil => simp [popMin] at h
    | cons b l'' =>
      unfold popMin at h
      rcases hm : popMin (b :: l'') with _ | ⟨z, rest⟩ <;> rw [hm] at h <;> dsimp only at h
      · exact absurd h (by simp)
      · by_cases hc : a.1 ≤ z.1
        · rw [if_pos hc] at h; exact absurd h (by simp)
        · rw [if_neg hc] at h; exact absurd h (by simp)

theorem popMin_length {n : Nat} :
    ∀ (l : List (Int × Fin n)) (x : Int × Fin n) (rest : List (Int × Fin n)),
      popMin l = some (x, rest) → rest.length + 1 = l.length := by
  intro l
  induction l with
  | nil => intro x rest h; simp [popMin] at h
  | cons a l ih =>
    intro x rest h
    cases l with
    | nil =>
      unfold popMin at h
      injection h with h'
      injection h' with h1 h2
      rw [← h2]
      rfl
    | cons b l' =>
      unfold popMin at h
      rcases hm : popMin (b :: l') with _ | ⟨z, rest'⟩ <;> rw [hm] at h <;> dsimp only at h
      · have := popMin_none (b :: l') hm
        exact absurd this (by simp)
      · by_cases hc : a.1 ≤ z.1
        · rw [if_pos hc] at h
          injection h with h'
          injection h' with h1 h2
          rw [← h2]
          rfl
        · rw [if_neg hc] at h
          injection h with h'
          injection h' with h1 h2
          rw [← h2]
          have := ih z rest' hm
          simp at this ⊢
          omega

theorem popMin_mem {n : Nat} :
    ∀ (l : List (Int × Fin n)) (x : Int × Fin n) (rest : List (Int × Fin n)),
      popMin l = some (x, rest) → x ∈ l ∧ ∀ y ∈ l, y = x ∨ y ∈ rest := by
  intro l
  induction l with
  | nil => intro x rest h; simp [popMin] at h
  | cons a l ih =>
    intro x rest h
    cases l with
    | nil =>
      unfold popMin at h
      injection h with h'
      injection h' with h1 h2
      subst h1
      constructor
      · exact List.mem_cons_self _ _
      · intro y hy
        rcases List.mem_cons.mp hy with h | h
        · exact Or.inl h
        · cases h
    | cons b l' =>
      unfold popMin at h
      rcases hm : popMin (b :: l') with _ | ⟨z, rest'⟩ <;> rw [hm] at h <;> dsimp only at h
      · have := popMin_none (b :: l') hm
        exact absurd this (by simp)
      · by_cases hc : a.1 ≤ z.1
        · rw [if_pos hc] at h
          injection h with h'
          injection h' with h1 h2
          subst h1
          subst h2
          constructor
          · exact List.mem_cons_self _ _
          · intro y hy
            rcases List.mem_cons.mp hy with h | h
            · exact Or.inl h
            · exact Or.inr h
        · rw [if_neg hc] at h
          injection h with h'
          injection h' with h1 h2
          subst h1
          subst h2
          rcases ih z rest' hm with ⟨hzmem, hcov⟩
          constructor
          · exact List.mem_cons_of_mem _ hzmem
          · intro y hy
            rcases List.mem_cons.mp hy with h | h
            · subst h
              exact Or.inr (List.mem_cons_self _ _)
            · rcases hcov y h with h' | h'
              · exact Or.inl h'
              · exact Or.inr (List.mem_cons_of_mem _ h')

theorem popMin_rest_mem {n : Nat} :
    ∀ (l : List (Int × Fin n)) (x : Int × Fin n) (rest : List (Int × Fin n)),
      popMin l = some (x, rest) → ∀ y ∈ rest, y ∈ l := by
  intro l
  induction l with
  | nil => intro x rest h; simp [popMin] at h
  | cons a l ih =>
    intro x rest h
    cases l with
    | nil =>
      unfold popMin at h
      injection h with h'
      injection h' with h1 h2
      subst h2
      intro y hy
      cases hy
    | cons b l' =>
      unfold popMin at h
      rcases hm : popMin (b :: l') with _ | ⟨z, rest'⟩ <;> rw [hm] at h <;> dsimp only at h
      · have := popMin_none (b :: l') hm
        exact absurd this (by simp)
      · by_cases hc : a.1 ≤ z.1
        · rw [if_pos hc] at h
          injection h with h'
          injection h' with h1 h2
          subst h2
          intro y hy
          exact List.mem_cons_of_mem _ hy
        · rw [if_neg hc] at h
          injection h with h'
          injection h' with h1 h2
          subst h2
          intro y hy
          rcases List.mem_cons.mp hy with h | h
          · subst h
            exact List.mem_cons_self _ _
          · exact List.mem_cons_of_mem _ (ih z rest' hm y h)

/-- The number of not-yet-finalized nodes; the primary termination measure. -/
def unsettledCount {n : Nat} (st : DijkState n) : Nat :=
  ((List.finRange n).filter (fun v => !st.settled v)).length

theorem filter_length_lt {α : Type} :
    ∀ (l : List α) (p q : α → Bool),
      (∀ x ∈ l, q x = true → p x = true) →
      ∀ x ∈ l, p x = true → q x = false →
      (l.filter q).length < (l.filter p).length := by
  intro l
  induction l with
  | nil => intro p q _ x hx; intro _ _; cases hx
  | cons a l ih =>
    intro p q himp x hx hpx hqx
    have hmono : ∀ (l' : List α), (∀ y ∈ l', q y = true → p y = true) →
        (l'.filter q).length ≤ (l'.filter p).length := by
      intro l'
      induction l' with
      | nil => intro _; simp
      | cons b l'' ih' =>
        intro himp'
        rcases hqb : q b with _ | _
        · rcases hpb : p b with _ | _
          · simp [List.filter_cons, hqb, hpb]
            exact ih' (fun y hy => himp' y (List.mem_cons_of_mem _ hy))
          · simp [List.filter_cons, hqb, hpb]
            have := ih' (fun y hy => himp' y (List.mem_cons_of_mem _ hy))
            omega
        · have hpb : p b = true := himp' b (List.mem_cons_self _ _) hqb
          simp [List.filter_cons, hqb, hpb]
          exact ih' (fun y hy => himp' y (List.mem_cons_of_mem _ hy))
    rcases List.mem_cons.mp hx with heq | hmem
    · subst heq
      simp [List.filter_cons, hpx, hqx]
      have := hmono l (fun y hy => himp y (List.mem_cons_of_mem _ hy))
      omega
    · rcases hqa : q a with _ | _
      · rcases hpa : p a with _ | _
        · simp [List.filter_cons, hqa, hpa]
          exact ih p q (fun y hy => himp y (List.mem_cons_of_mem _ hy)) x hmem hpx hqx
        · simp [List.filter_cons, hqa, hpa]
          have := ih p q (fun y hy => himp y (List.mem_cons_of_mem _ hy)) x hmem hpx hqx
          omega
      · have hpa : p a = true := himp a (List.mem_cons_self _ _) hqa
        simp [List.filter_cons, hqa, hpa]
        exact ih p q (fun y hy => himp y (List.mem_cons_of_mem _ hy)) x hmem hpx hqx

/-- Modelled from the spec: relax one edge out of the just-finalized node
`u` with finalized cost `du`: the first discovery or a strict improvement of
the neighbour's tentative distance updates distance and predecessor and
pushes a fresh frontier entry; otherwise nothing changes. -/
def relaxOne {n : Nat} (u : Fin n) (du : Int) (st : DijkState n)
    (vc : Fin n × Int) : DijkState n :=
  match st.dist vc.1 with
  | none =>
    { st with dist := updF st.dist vc.1 (some (du + vc.2)),
              pred := updF st.pred vc.1 (some u),
              frontier := (du + vc.2, vc.1) :: st.frontier }
  | some dv =>
    if du + vc.2 < dv then
      { st with dist := updF st.dist vc.1 (some (du + vc.2)),
                pred := updF st.pred vc.1 (some u),
                frontier := (du + vc.2, vc.1) :: st.frontier }
    else st

/-- Either the relaxation keeps the state (and the neighbour was already
discovered), or it performs the full update. -/
theorem relaxOne_cases {n : Nat} (u : Fin n) (du : Int) (st : DijkState n)
    (vc : Fin n × Int) :
    (relaxOne u du st vc = st ∧ st.dist vc.1 ≠ none) ∨
    relaxOne u du st vc =
      { st with dist := updF st.dist vc.1 (some (du + vc.2)),
                pred := updF st.pred vc.1 (some u),
                frontier := (du + vc.2, vc.1) :: st.frontier } := by
  unfold relaxOne
  rcases h : st.dist vc.1 with _ | dv
  · exact Or.inr rfl
  · dsimp only
    by_cases hlt : du + vc.2 < dv
    · rw [if_pos hlt]
      exact Or.inr rfl
    · rw [if_neg hlt]
      exact Or.inl ⟨rfl, by simp⟩

theorem relaxOne_settled {n : Nat} (u : Fin n) (du : Int) (st : DijkState n)
    (vc : Fin n × Int) : (relaxOne u du st vc).settled = st.settled := by
  rcases relaxOne_cases u du st vc with ⟨heq, _⟩ | heq <;> rw [heq]

theorem relaxOne_dist_mono {n : Nat} (u : Fin n) (du : Int) (st : DijkState n)
    (vc : Fin n × Int) (v : Fin n) (hv : st.dist v ≠ none) :
    (relaxOne u du st vc).dist v ≠ none := by
  rcases relaxOne_cases u du st vc with ⟨heq, _⟩ | heq <;> rw [heq]
  · exact hv
  · show updF st.dist vc.1 (some (du + vc.2)) v ≠ none
    unfold updF
    by_cases hvv : v = vc.1
    · rw [if_pos hvv]
      exact fun hcon => Option.noConfusion hcon
    · rw [if_neg hvv]
      exact hv

theorem relaxOne_processed {n : Nat} (u : Fin n) (du : Int) (st : DijkState n)
    (vc : Fin n × Int) : (relaxOne u du st vc).dist vc.1 ≠ none := by
  rcases relaxOne_cases u du st vc with ⟨heq, hd⟩ | heq <;> rw [heq]
  · exact hd
  · show updF st.dist vc.1 (some (du + vc.2)) vc.1 ≠ none
    unfold updF
    rw [if_pos rfl]
    exact fun hcon => Option.noConfusion hcon

theorem relaxOne_covered {n : Nat} (u : Fin n) (du : Int) (st : DijkState n)
    (vc : Fin n × Int)
    (h : ∀ v, st.dist v ≠ none → st.settled v = true ∨ ∃ c, (c, v) ∈ st.frontier) :
    ∀ v, (relaxOne u du st vc).dist v ≠ none →
      (relaxOne u du st vc).settled v = true ∨
      ∃ c, (c, v) ∈ (relaxOne u du st vc).frontier := by
  rcases relaxOne_cases u du st vc with ⟨heq, _⟩ | heq <;> rw [heq]
  · exact h
  · intro v hv
    by_cases hvv : v = vc.1
    · subst hvv
      exact Or.inr ⟨du + vc.2, List.mem_cons_self _ _⟩
    · have hvd : st.dist v ≠ none := by
        revert hv
        show updF st.dist vc.1 (some (du + vc.2)) v ≠ none → st.dist v ≠ none
        unfold updF
        rw [if_neg hvv]
        exact id
      rcases h v hvd with hs | ⟨c, hc⟩
      · exact Or.inl hs
      · exact Or.inr ⟨c, List.mem_cons_of_mem _ hc⟩

theorem relaxOne_fkeys {n : Nat} (u : Fin n) (du : Int) (st : DijkState n)
    (vc : Fin n × Int)
    (h : ∀ c v, (c, v) ∈ st.frontier → st.dist v ≠ none) :
    ∀ c v, (c, v) ∈ (relaxOne u du st vc).frontier →
      (relaxOne u du st vc).dist v ≠ none := by
  intro c v hcv
  rcases relaxOne_cases u du st vc with ⟨heq, _⟩ | heq
  · rw [heq] at hcv ⊢
    exact h c v hcv
  · rw [heq] at hcv ⊢
    rcases List.mem_cons.mp hcv with hhd | htl
    · injection hhd with hc1 hv1
      show updF st.dist vc.1 (some (du + vc.2)) v ≠ none
      unfold updF
      rw [if_pos hv1]
      exact fun hcon => Option.noConfusion hcon
    · show updF st.dist vc.1 (some (du + vc.2)) v ≠ none
      unfold updF
      by_cases hvv : v = vc.1
      · rw [if_pos hvv]
        exact fun hcon => Option.noConfusion hcon
      · rw [if_neg hvv]
        exact h c v htl

theorem relaxOne_reaches {n : Nat} {dir : Direction} {g : FWGraph n} {s u : Fin n}
    (du : Int) (st : DijkState n) (vc : Fin n × Int)
    (hu : Reach (ER dir g) s u) (he : ER dir g u vc.1 vc.2)
    (h : ∀ v, st.dist v ≠ none → Reach (ER dir g) s v) :
    ∀ v, (relaxOne u du st vc).dist v ≠ none → Reach (ER dir g) s v := by
  intro v hv
  rcases relaxOne_cases u du st vc with ⟨heq, _⟩ | heq
  · rw [heq] at hv
    exact h v hv
  · by_cases hvv : v = vc.1
    · subst hvv
      exact reach_snoc hu he
    · rw [heq] at hv
      have hvd : st.dist v ≠ none := by
        revert hv
        show updF st.dist vc.1 (some (du + vc.2)) v ≠ none → st.dist v ≠ none
        unfold updF
        rw [if_neg hvv]
        exact id
      exact h v hvd

theorem relaxFold_settled {n : Nat} (u : Fin n) (du : Int) :
    ∀ (nbrs : List (Fin n × Int)) (st : DijkState n),
      (nbrs.foldl (relaxOne u du) st).settled = st.settled := by
  intro nbrs
  induction nbrs with
  | nil => intro st; rfl
  | cons vc nbrs ih =>
    intro st
    rw [List.foldl_cons, ih, relaxOne_settled]

theorem relaxFold_dist_mono {n : Nat} (u : Fin n) (du : Int) :
    ∀ (nbrs : List (Fin n × Int)) (st : DijkState n) (v : Fin n),
      st.dist v ≠ none → (nbrs.foldl (relaxOne u du) st).dist v ≠ none := by
  intro nbrs
  induction nbrs with
  | nil => intro st v hv; exact hv
  | cons vc nbrs ih =>
    intro st v hv
    rw [List.foldl_cons]
    exact ih _ v (relaxOne_dist_mono u du st vc v hv)

theorem relaxFold_processed {n : Nat} (u : Fin n) (du : Int) :
    ∀ (nbrs : List (Fin n × Int)) (st : DijkState n) (vc : Fin n × Int),
      vc ∈ nbrs → (nbrs.foldl (relaxOne u du) st).dist vc.1 ≠ none := by
  intro nbrs
  induction nbrs with
  | nil => intro st vc hvc; cases hvc
  | cons wc nbrs ih =>
    intro st vc hvc
    rw [List.foldl_cons]
    rcases List.mem_cons.mp hvc with heq | hmem
    · subst heq
      exact relaxFold_dist_mono u du nbrs _ vc.1 (relaxOne_processed u du st vc)
    · exact ih _ vc hmem

theorem relaxFold_inv {n : Nat} {dir : Direction} {g : FWGraph n} {s u : Fin n}
    (du : Int) (hu : Reach (ER dir g) s u) :
    ∀ (nbrs : List (Fin n × Int)), (∀ vc ∈ nbrs, ER dir g u vc.1 vc.2) →
    ∀ st : DijkState n,
      (∀ v, st.dist v ≠ none → st.settled v = true ∨ ∃ c, (c, v) ∈ st.frontier) →
      (∀ c v, (c, v) ∈ st.frontier → st.dist v ≠ none) →
      (∀ v, st.dist v ≠ none → Reach (ER dir g) s v) →
      (∀ v, (nbrs.foldl (relaxOne u du) st).dist v ≠ none →
        (nbrs.foldl (relaxOne u du) st).settled v = true ∨
        ∃ c, (c, v) ∈ (nbrs.foldl (relaxOne u du) st).frontier) ∧
      (∀ c v, (c, v) ∈ (nbrs.foldl (relaxOne u du) st).frontier →
        (nbrs.foldl (relaxOne u du) st).dist v ≠ none) ∧
      (∀ v, (nbrs.foldl (relaxOne u du) st).dist v ≠ none → Reach (ER dir g) s v) := by
  intro nbrs
  induction nbrs with
  | nil => intro _ st h1 h2 h3; exact ⟨h1, h2, h3⟩
  | cons vc nbrs ih =>
    intro hnb st h1 h2 h3
    rw [List.foldl_cons]
    exact ih (fun wc hwc => hnb wc (List.mem_cons_of_mem _ hwc)) _
      (relaxOne_covered u du st vc h1)
      (relaxOne_fkeys u du st vc h2)
      (relaxOne_reaches du st vc hu (hnb vc (List.mem_cons_self _ _)) h3)

/-- Modelled from the spec: the main loop: pop a minimum-cost frontier entry;
a stale entry (node already finalized) is discarded; otherwise the node is
finalized and each of its outgoing (or incident) edges is relaxed.  The run
ends when the frontier is exhausted. -/
def dijkstraLoop {n : Nat} (dir : Direction) (g : FWGraph n) (st : DijkState n) :
    DijkState n :=
  match hpop : popMin st.frontier with
  | none => st
  | some ((c, u), rest) =>
    if hs : st.settled u = true then
      dijkstraLoop dir g { st with frontier := rest }
    else
      dijkstraLoop dir g
        ((outEdges dir g u).foldl (relaxOne u ((st.dist u).getD c))
          { st with settled := updF st.settled u true, frontier := rest })
termination_by (unsettledCount st, st.frontier.length)
decreasing_by
  · apply Prod.Lex.right
    have := popMin_length st.frontier (c, u) rest hpop
    show List.length rest < List.length st.frontier
    omega
  · apply Prod.Lex.left
    have h1 : ((outEdges dir g u).foldl (relaxOne u ((st.dist u).getD c))
        { st with settled := updF st.settled u true, frontier := rest }).settled =
        updF st.settled u true := relaxFold_settled u _ (outEdges dir g u) _
    unfold unsettledCount
    rw [h1]
    apply filter_length_lt (List.finRange n) (fun v => !st.settled v)
      (fun v => !updF st.settled u true v)
    · intro x _ hq
      simp only [updF] at hq
      by_cases hxu : x = u
      · rw [if_pos hxu] at hq
        simp at hq
      · rw [if_neg hxu] at hq
        simpa using hq
    · exact List.mem_finRange u
    · simp [hs]
    · simp [updF]

/-- Modelled from the spec: the initial state seeds the source at cost zero:
it is the only discovered node and the only frontier entry. -/
def dijkInit {n : Nat} (s : Fin n) : DijkState n :=
  { dist := fun v => if v = s then some 0 else none,
    pred := fun _ => none,
    settled := fun _ => false,
    frontier := [(0, s)] }

/-- Modelled from the spec: a full single-source run of the Dijkstra engine. -/
def dijkstraRun {n : Nat} (dir : Direction) (g : FWGraph n) (s : Fin n) :
    DijkState n :=
  dijkstraLoop dir g (dijkInit s)

theorem dijkstraLoop_frontier {n : Nat} (dir : Direction) (g : FWGraph n) :
    ∀ st : DijkState n, (dijkstraLoop dir g st).frontier = [] := by
  intro st
  induction st using dijkstraLoop.induct dir g with
  | case1 st hpop =>
    rw [dijkstraLoop, hpop]
    dsimp only
    exact popMin_none st.frontier hpop
  | case2 st c u rest hpop hs ih =>
    rw [dijkstraLoop, hpop]
    dsimp only
    rw [dif_pos hs]
    exact ih
  | case3 st c u rest hpop hs ih =>
    rw [dijkstraLoop, hpop]
    dsimp only
    rw [dif_neg hs]
    exact ih

/-- The run invariant: every discovered node is finalized or pending, every
frontier key is discovered, finalized nodes have all their neighbours
discovered, and discovery implies reachability from the source. -/
structure DijkInv {n : Nat} (dir : Direction) (g : FWGraph n) (s : Fin n)
    (st : DijkState n) : Prop where
  covered : ∀ v, st.dist v ≠ none → st.settled v = true ∨ ∃ c, (c, v) ∈ st.frontier
  fkeys : ∀ c v, (c, v) ∈ st.frontier → st.dist v ≠ none
  expanded : ∀ u, st.settled u = true → ∀ vc ∈ outEdges dir g u, st.dist vc.1 ≠ none
  reaches : ∀ v, st.dist v ≠ none → Reach (ER dir g) s v
  src : st.dist s ≠ none

theorem dijkstraLoop_inv {n : Nat} (dir : Direction) (g : FWGraph n) (s : Fin n) :
    ∀ st : DijkState n, DijkInv dir g s st → DijkInv dir g s (dijkstraLoop dir g st) := by
  intro st
  induction st using dijkstraLoop.induct dir g with
  | case1 st hpop =>
    intro hI
    rw [dijkstraLoop, hpop]
    dsimp only
    exact hI
  | case2 st c u rest hpop hs ih =>
    intro hI
    rw [dijkstraLoop, hpop]
    dsimp only
    rw [dif_pos hs]
    apply ih
    obtain ⟨hmem, hcov⟩ := popMin_mem st.frontier (c, u) rest hpop
    refine ⟨?_, ?_, hI.expanded, hI.reaches, hI.src⟩
    · intro v hv
      rcases hI.covered v hv with h | ⟨c', hc'⟩
      · exact Or.inl h
      · rcases hcov (c', v) hc' with heq | hrest
        · injection heq with hc1 hv1
          exact Or.inl (hv1 ▸ hs)
        · exact Or.inr ⟨c', hrest⟩
    · intro c' v hc'
      exact hI.fkeys c' v (popMin_rest_mem st.frontier (c, u) rest hpop (c', v) hc')
  | case3 st c u rest hpop hs ih =>
    intro hI
    rw [dijkstraLoop, hpop]
    dsimp only
    rw [dif_neg hs]
    apply ih
    obtain ⟨hmem, hcov⟩ := popMin_mem st.frontier (c, u) rest hpop
    have hud : st.dist u ≠ none := hI.fkeys c u hmem
    have hur : Reach (ER dir g) s u := hI.reaches u hud
    have hcov1 : ∀ v, st.dist v ≠ none →
        updF st.settled u true v = true ∨ ∃ c', (c', v) ∈ rest := by
      intro v hv
      rcases hI.covered v hv with h | ⟨c', hc'⟩
      · refine Or.inl ?_
        unfold updF
        by_cases hvu : v = u
        · rw [if_pos hvu]
        · rw [if_neg hvu]
          exact h
      · rcases hcov (c', v) hc' with heq | hrest
        · injection heq with hc1 hv1
          refine Or.inl ?_
          unfold updF
          rw [if_pos hv1]
        · exact Or.inr ⟨c', hrest⟩
    have hfk1 : ∀ c' v, (c', v) ∈ rest → st.dist v ≠ none := fun c' v hc' =>
      hI.fkeys c' v (popMin_rest_mem st.frontier (c, u) rest hpop (c', v) hc')
    obtain ⟨hcovF, hfkF, hreF⟩ := relaxFold_inv ((st.dist u).getD c) hur
      (outEdges dir g u) (fun vc hvc => mem_outEdges.mp hvc)
      { st with settled := updF st.settled u true, frontier := rest }
      hcov1 hfk1 hI.reaches
    refine ⟨hcovF, hfkF, ?_, hreF, ?_⟩
    · intro u' hu' vc hvc
      have hset : ((outEdges dir g u).foldl (relaxOne u ((st.dist u).getD c))
          { st with settled := updF st.settled u true, frontier := rest }).settled =
          updF st.settled u true := relaxFold_settled u _ (outEdges dir g u) _
      rw [hset] at hu'
      by_cases huu : u' = u
      · subst huu
        exact relaxFold_processed u' _ (outEdges dir g u') _ vc hvc
      · have hold : st.settled u' = true := by
          revert hu'
          show updF st.settled u true u' = true → st.settled u' = true
          unfold updF
          rw [if_neg huu]
          exact id
        exact relaxFold_dist_mono u _ (outEdges dir g u) _ vc.1
          (hI.expanded u' hold vc hvc)
    · exact relaxFold_dist_mono u _ (outEdges dir g u) _ s hI.src

theorem dijkInit_inv {n : Nat} (dir : Direction) (g : FWGraph n) (s : Fin n) :
    DijkInv dir g s (dijkInit s) := by
  refine ⟨?_, ?_, ?_, ?_, ?_⟩
  · intro v hv
    by_cases hvs : v = s
    · exact Or.inr ⟨0, by rw [hvs]; exact List.mem_singleton.mpr rfl⟩
    · exact absurd (show (dijkInit s).dist v = none from if_neg hvs) hv
  · intro c v hcv
    have h1 := List.mem_singleton.mp hcv
    injection h1 with hc hv
    have h2 : (dijkInit s).dist v = some 0 := by
      show (if v = s then some (0 : Int) else none) = some 0
      rw [if_pos hv]
    rw [h2]
    simp
  · intro u hu vc hvc
    exact absurd hu (by simp [dijkInit])
  · intro v hv
    by_cases hvs : v = s
    · rw [hvs]
      exact ⟨[s], 0, EdgeSeq.single s, rfl, rfl⟩
    · exact absurd (show (dijkInit s).dist v = none from if_neg hvs) hv
  · show (if s = s then some (0 : Int) else none) ≠ none
    rw [if_pos rfl]
    simp

/-- A node is discovered by a single-source run exactly when it is reachable
from the source: the Dijkstra result set is weight-independent. -/
theorem dijkstraRun_present_iff_reach {n : Nat} (dir : Direction) (g : FWGraph n)
    (s t : Fin n) :
    (dijkstraRun dir g s).dist t ≠ none ↔ Reach (ER dir g) s t := by
  have hI := dijkstraLoop_inv dir g s (dijkInit s) (dijkInit_inv dir g s)
  have hfr := dijkstraLoop_frontier dir g (dijkInit s)
  constructor
  · intro hv
    exact hI.reaches t hv
  · intro hreach
    have hset : ∀ v, (dijkstraRun dir g s).dist v ≠ none →
        (dijkstraRun dir g s).settled v = true := by
      intro v hv
      rcases hI.covered v hv with h | ⟨c, hc⟩
      · exact h
      · rw [hfr] at hc
        cases hc
    have hstep : ∀ u v c, (dijkstraRun dir g s).dist u ≠ none → ER dir g u v c →
        (dijkstraRun dir g s).dist v ≠ none := by
      intro u v c hu he
      exact hI.expanded u (hset u hu) (v, c) (mem_outEdges.mpr he)
    obtain ⟨l, c0, hseq, hhead, hlast⟩ := hreach
    cases l with
    | nil => exact absurd hhead (by simp)
    | cons a l' =>
      have ha : a = s := by simpa using hhead
      have main : ∀ (l2 : List (Fin n)) (u : Fin n) (c2 : Int),
          EdgeSeq (ER dir g) (u :: l2) c2 → (dijkstraRun dir g s).dist u ≠ none →
          (u :: l2).getLast? = some t → (dijkstraRun dir g s).dist t ≠ none := by
        intro l2
        induction l2 with
        | nil =>
          intro u c2 _ hu hl
          have hut : u = t := by simpa using hl
          exact hut ▸ hu
        | cons v l3 ih =>
          intro u c2 hseq2 hu hl
          cases hseq2 with
          | cons he hrest =>
            have hv := hstep u v _ hu he
            rw [List.getLast?_cons_cons] at hl
            exact ih v _ hrest hv hl
      have hsrc : (dijkstraRun dir g s).dist a ≠ none := by
        rw [ha]
        exact hI.src
      exact main l' a c0 hseq hsrc hlast

/-- Modelled from the spec: path reconstruction walks predecessor links
backward from the target, collecting the interior transit nodes; the walk is
fuel-bounded by the node count (a consistent predecessor chain to the source
never needs more steps). -/
def predWalk {n : Nat} (pred : Fin n → Option (Fin n)) (s : Fin n) :
    Nat → Fin n → List (Fin n)
  | 0, _ => []
  | fuel + 1, v =>
    match pred v with
    | none => []
    | some u => if u = s then [] else predWalk pred s fuel u ++ [u]

/-- Modelled from the spec: the route list produced by a single-source run:
one route per node present in the final tentative-distance map, with the
transit reconstructed from the predecessor links. -/
def dijkRoutes {n : Nat} (dir : Direction) (g : FWGraph n) (s : Fin n) :
    List (Route n) :=
  (List.finRange n).filterMap (fun t =>
    ((dijkstraRun dir g s).dist t).map (fun c =>
      Route.mk s t (predWalk (dijkstraRun dir g s).pred s n t) c))

/-- Modelled from the spec: the cost-only result list of a single-source run;
path reconstruction is skipped. -/
def dijkDistances {n : Nat} (dir : Direction) (g : FWGraph n) (s : Fin n) :
    List (DirectRoute n) :=
  (List.finRange n).filterMap (fun t =>
    ((dijkstraRun dir g s).dist t).map (fun c => DirectRoute.mk s t c))

/-- Modelled from the spec: the single-source path query of the Dijkstra
engine; the engine has no failure mode (costs are not validated). -/
def dijkstra_path_from {n : Nat} (dir : Direction) (g : FWGraph n) (s : Fin n) :
    Except (List (Fin n)) (List (Route n)) :=
  Except.ok (dijkRoutes dir g s)

/-- Modelled from the spec: the all-pairs path query of the Dijkstra engine
runs the single-source query from every node. -/
def dijkstra_every_path {n : Nat} (dir : Direction) (g : FWGraph n) :
    Except (List (Fin n)) (List (Route n)) :=
  Except.ok ((List.finRange n).flatMap (fun s => dijkRoutes dir g s))

/-- Modelled from the spec: the single-source distance query of the Dijkstra
engine. -/
def dijkstra_distance_from {n : Nat} (dir : Direction) (g : FWGraph n) (s : Fin n) :
    Except (List (Fin n)) (List (DirectRoute n)) :=
  Except.ok (dijkDistances dir g s)

/-- Modelled from the spec: the all-pairs distance query of the Dijkstra
engine. -/
def dijkstra_every_distance {n : Nat} (dir : Direction) (g : FWGraph n) :
    Except (List (Fin n)) (List (DirectRoute n)) :=
  Except.ok ((List.finRange n).flatMap (fun s => dijkDistances dir g s))

theorem countP_flatMap {α β : Type} (p : β → Bool) (f : α → List β) :
    ∀ l : List α, (l.flatMap f).countP p = (l.map (fun x => (f x).countP p)).sum := by
  intro l
  induction l with
  | nil => rfl
  | cons a l ih =>
    rw [List.flatMap_cons, List.countP_append, List.map_cons, List.sum_cons, ih]

theorem sum_eq_single {α : Type} [DecidableEq α] :
    ∀ (l : List α) (F : α → Nat) (x : α), l.Nodup → x ∈ l →
      (∀ y ∈ l, y ≠ x → F y = 0) → (l.map F).sum = F x := by
  intro l
  induction l with
  | nil => intro F x _ hx; cases hx
  | cons a l ih =>
    intro F x hnd hx hz
    rw [List.map_cons, List.sum_cons]
    rcases List.mem_cons.mp hx with heq | hx'
    · subst heq
      have hrest : (l.map F).sum = 0 := by
        apply List.sum_eq_zero
        intro y hy
        obtain ⟨z, hzl, hzy⟩ := List.mem_map.mp hy
        rw [← hzy]
        exact hz z (List.mem_cons_of_mem _ hzl)
          (fun h => (List.nodup_cons.mp hnd).1 (h ▸ hzl))
      omega
    · have ha : F a = 0 := hz a (List.mem_cons_self _ _)
        (fun h => (List.nodup_cons.mp hnd).1 (h ▸ hx'))
      rw [ha, ih F x (List.nodup_cons.mp hnd).2 hx'
        (fun y hy hyx => hz y (List.mem_cons_of_mem _ hy) hyx)]
      omega

theorem dijkRoutes_count_self {n : Nat} (dir : Direction) (g : FWGraph n)
    (s t : Fin n) :
    routeCount (dijkRoutes dir g s) s t =
      if ((dijkstraRun dir g s).dist t).isSome then 1 else 0 := by
  unfold routeCount dijkRoutes
  rw [countP_filterMap]
  apply countP_unique t (((dijkstraRun dir g s).dist t).isSome)
  · intro j
    by_cases hj : j = t
    · subst hj
      rcases hst : (dijkstraRun dir g s).dist j with _ | c <;> simp [hst]
    · rcases hst : (dijkstraRun dir g s).dist j with _ | c <;> simp [hst, hj]
  · exact List.nodup_finRange n
  · exact List.mem_finRange t

theorem dijkRoutes_count_other {n : Nat} (dir : Direction) (g : FWGraph n)
    {q s : Fin n} (hne : q ≠ s) (t : Fin n) :
    routeCount (dijkRoutes dir g q) s t = 0 := by
  unfold routeCount
  apply List.countP_eq_zero.mpr
  intro r hr
  obtain ⟨j, hj, hmap⟩ := List.mem_filterMap.mp hr
  rcases hd : (dijkstraRun dir g q).dist j with _ | c
  · rw [hd] at hmap
    cases hmap
  · rw [hd] at hmap
    injection hmap with hmap'
    rw [← hmap']
    simp [hne]

theorem dijkDistances_eq {n : Nat} (dir : Direction) (g : FWGraph n) (s : Fin n) :
    dijkDistances dir g s = (dijkRoutes dir g s).map Route.toDirect := by
  unfold dijkDistances dijkRoutes
  rw [List.map_filterMap]
  apply List.filterMap_congr
  intro t _
  rcases hd : (dijkstraRun dir g s).dist t with _ | c <;> simp [Route.toDirect]

theorem dijk_every_routeCount {n : Nat} (dir : Direction) (g : FWGraph n)
    (s t : Fin n) :
    routeCount ((List.finRange n).flatMap (fun q => dijkRoutes dir g q)) s t =
      routeCount (dijkRoutes dir g s) s t := by
  unfold routeCount
  rw [countP_flatMap]
  have hz : ∀ q ∈ List.finRange n, q ≠ s →
      (dijkRoutes dir g q).countP
        (fun r => decide (r.source = s ∧ r.target = t)) = 0 := by
    intro q _ hq
    exact dijkRoutes_count_other dir g hq t
  exact sum_eq_single (List.finRange n) _ s (List.nodup_finRange n)
    (List.mem_finRange s) hz

/-- The Dijkstra engine satisfies the completeness contract: its four query
sequences contain exactly one result per reachable ordered pair and none for
unreachable pairs (weight-independently, with no failure mode). -/
theorem dijkstra_completeness {n : Nat} (dir : Direction) (g : FWGraph n) :
    ∃ qs es, dijkstra_every_path dir g = Except.ok qs ∧
      dijkstra_every_distance dir g = Except.ok es ∧
      (∀ s t : Fin n,
        (Reach (ER dir g) s t → routeCount qs s t = 1 ∧ directCount es s t = 1) ∧
        (¬ Reach (ER dir g) s t → routeCount qs s t = 0 ∧ directCount es s t = 0)) ∧
      (∀ s : Fin n, ∃ fs fd, dijkstra_path_from dir g s = Except.ok fs ∧
        dijkstra_distance_from dir g s = Except.ok fd ∧
        ∀ t : Fin n,
          (Reach (ER dir g) s t → routeCount fs s t = 1 ∧ directCount fd s t = 1) ∧
          (¬ Reach (ER dir g) s t → routeCount fs s t = 0 ∧ directCount fd s t = 0)) := by
  have hflat : ∀ s t : Fin n,
      routeCount ((List.finRange n).flatMap (fun q => dijkRoutes dir g q)) s t =
        if ((dijkstraRun dir g s).dist t).isSome then 1 else 0 := by
    intro s t
    rw [dijk_every_routeCount, dijkRoutes_count_self]
  have hflatD : ∀ s t : Fin n,
      directCount ((List.finRange n).flatMap (fun q => dijkDistances dir g q)) s t =
        routeCount ((List.finRange n).flatMap (fun q => dijkRoutes dir g q)) s t := by
    intro s t
    have hmap : (List.finRange n).flatMap (fun q => dijkDistances dir g q) =
        ((List.finRange n).flatMap (fun q => dijkRoutes dir g q)).map Route.toDirect := by
      rw [List.map_flatMap]
      apply List.flatMap_congr
      intro q _
      exact dijkDistances_eq dir g q
    rw [hmap, directCount_map]
  have hsome : ∀ s t : Fin n,
      ((dijkstraRun dir g s).dist t).isSome = true ↔ Reach (ER dir g) s t := by
    intro s t
    rw [← dijkstraRun_present_iff_reach dir g s t, Option.isSome_iff_ne_none]
  refine ⟨_, _, rfl, rfl, ?_, ?_⟩
  · intro s t
    constructor
    · intro hreach
      constructor
      · rw [hflat, if_pos ((hsome s t).mpr hreach)]
      · rw [hflatD, hflat, if_pos ((hsome s t).mpr hreach)]
    · intro hreach
      constructor
      · rw [hflat, if_neg (fun hb => hreach ((hsome s t).mp hb))]
      · rw [hflatD, hflat, if_neg (fun hb => hreach ((hsome s t).mp hb))]
  · intro s
    refine ⟨_, _, rfl, rfl, ?_⟩
    intro t
    have hD : directCount (dijkDistances dir g s) s t =
        routeCount (dijkRoutes dir g s) s t := by
      rw [dijkDistances_eq, directCount_map]
    constructor
    · intro hreach
      constructor
      · rw [dijkRoutes_count_self, if_pos ((hsome s t).mpr hreach)]
      · rw [hD, dijkRoutes_count_self, if_pos ((hsome s t).mpr hreach)]
    · intro hreach
      constructor
      · rw [dijkRoutes_count_self, if_neg (fun hb => hreach ((hsome s t).mp hb))]
      · rw [hD, dijkRoutes_count_self, if_neg (fun hb => hreach ((hsome s t).mp hb))]

/-- The Floyd-Warshall half of the completeness property: on a graph without
negative cycles, the all-pairs sequences contain exactly one result per
ordered pair (s,t) with s able to reach t, and no entry at all for
unreachable pairs; likewise for the source-restricted sequences. -/
theorem fw_completeness {n : Nat} (dir : Direction) (g : FWGraph n)
    (h : NoNegCycle (ER dir g)) :
    ∃ rs ds, every_path dir g = Except.ok rs ∧ every_distance dir g = Except.ok ds ∧
      (∀ s t : Fin n,
        (Reach (ER dir g) s t → routeCount rs s t = 1 ∧ directCount ds s t = 1) ∧
        (¬ Reach (ER dir g) s t → routeCount rs s t = 0 ∧ directCount ds s t = 0)) ∧
      (∀ s : Fin n, ∃ fs fd, path_from dir g s = Except.ok fs ∧
        distance_from dir g s = Except.ok fd ∧
        ∀ t : Fin n,
          (Reach (ER dir g) s t → routeCount fs s t = 1 ∧ directCount fd s t = 1) ∧
          (¬ Reach (ER dir g) s t → routeCount fs s t = 0 ∧ directCount fd s t = 0)) := by
  have hsuc := noNegCycle_success dir g h
  have hep : every_path dir g = Except.ok ((pairList n).filterMap (fun ij =>
      (fwTable dir g ij.1 ij.2).map (fun e => Route.mk ij.1 ij.2 e.2 e.1))) :=
    every_path_ok_iff.mpr ⟨hsuc, rfl⟩
  refine ⟨_, _, hep, by rw [every_distance_eq, hep]; rfl, ?_, ?_⟩
  · intro s t
    have hcount := every_path_routeCount hep s t
    have hiff := fwTable_present_iff_reach dir g s t
    have hsome : (fwTable dir g s t).isSome = true ↔ Reach (ER dir g) s t := by
      rw [← hiff, Option.isSome_iff_ne_none]
    constructor
    · intro hreach
      constructor
      · rw [hcount, if_pos (hsome.mpr hreach)]
      · rw [directCount_map, hcount, if_pos (hsome.mpr hreach)]
    · intro hreach
      constructor
      · rw [hcount, if_neg (fun hb => hreach (hsome.mp hb))]
      · rw [directCount_map, hcount, if_neg (fun hb => hreach (hsome.mp hb))]
  · intro s
    have hpf : path_from dir g s = Except.ok ((List.finRange n).filterMap
        (fun j => (fwTable dir g s j).map (fun e => Route.mk s j e.2 e.1))) :=
      path_from_ok_iff.mpr ⟨hsuc, rfl⟩
    refine ⟨_, _, hpf, by rw [distance_from_eq, hpf]; rfl, ?_⟩
    intro t
    have hcount := path_from_routeCount hpf t
    have hiff := fwTable_present_iff_reach dir g s t
    have hsome : (fwTable dir g s t).isSome = true ↔ Reach (ER dir g) s t := by
      rw [← hiff, Option.isSome_iff_ne_none]
    constructor
    · intro hreach
      constructor
      · rw [hcount, if_pos (hsome.mpr hreach)]
      · rw [directCount_map, hcount, if_pos (hsome.mpr hreach)]
    · intro hreach
      constructor
      · rw [hcount, if_neg (fun hb => hreach (hsome.mp hb))]
      · rw [directCount_map, hcount, if_neg (fun hb => hreach (hsome.mp hb))]

/-- C3: for every graph without negative cycles and for both shipped
algorithms (the all-pairs Floyd-Warshall engine and the single-source
Dijkstra engine), the sequences returned by every_path/every_distance and
the source-restricted path_from/distance_from contain exactly one result
per ordered pair (s,t) where s can reach t, and no entry at all (in
particular no sentinel infinite cost) for any pair whose target is
unreachable from its source. -/
theorem shortest_path_completeness {n : Nat} (dir : Direction) (g : FWGraph n)
    (h : NoNegCycle (ER dir g)) :
    (∃ rs ds, every_path dir g = Except.ok rs ∧ every_distance dir g = Except.ok ds ∧
      (∀ s t : Fin n,
        (Reach (ER dir g) s t → routeCount rs s t = 1 ∧ directCount ds s t = 1) ∧
        (¬ Reach (ER dir g) s t → routeCount rs s t = 0 ∧ directCount ds s t = 0)) ∧
      (∀ s : Fin n, ∃ fs fd, path_from dir g s = Except.ok fs ∧
        distance_from dir g s = Except.ok fd ∧
        ∀ t : Fin n,
          (Reach (ER dir g) s t → routeCount fs s t = 1 ∧ directCount fd s t = 1) ∧
          (¬ Reach (ER dir g) s t → routeCount fs s t = 0 ∧ directCount fd s t = 0))) ∧
    (∃ qs es, dijkstra_every_path dir g = Except.ok qs ∧
      dijkstra_every_distance dir g = Except.ok es ∧
      (∀ s t : Fin n,
        (Reach (ER dir g) s t → routeCount qs s t = 1 ∧ directCount es s t = 1) ∧
        (¬ Reach (ER dir g) s t → routeCount qs s t = 0 ∧ directCount es s t = 0)) ∧
      (∀ s : Fin n, ∃ fs fd, dijkstra_path_from dir g s = Except.ok fs ∧
        dijkstra_distance_from dir g s = Except.ok fd ∧
        ∀ t : Fin n,
          (Reach (ER dir g) s t → routeCount fs s t = 1 ∧ directCount fd s t = 1) ∧
          (¬ Reach (ER dir g) s t → routeCount fs s t = 0 ∧ directCount fd s t = 0))) :=
  ⟨fw_completeness dir g h, dijkstra_completeness dir g⟩

/-- Witness for C3 at the weighted test graph (nonnegative edges, hence no
negative cycle), covering both engines. -/
theorem shortest_path_completeness_witness :
    (∃ rs ds, every_path Direction.directed weightedGraph = Except.ok rs ∧
      every_distance Direction.directed weightedGraph = Except.ok ds ∧
      (∀ s t : Fin 4,
        (Reach (ER Direction.directed weightedGraph) s t →
          routeCount rs s t = 1 ∧ directCount ds s t = 1) ∧
        (¬ Reach (ER Direction.directed weightedGraph) s t →
          routeCount rs s t = 0 ∧ directCount ds s t = 0)) ∧
      (∀ s : Fin 4, ∃ fs fd,
        path_from Direction.directed weightedGraph s = Except.ok fs ∧
        distance_from Direction.directed weightedGraph s = Except.ok fd ∧
        ∀ t : Fin 4,
          (Reach (ER Direction.directed weightedGraph) s t →
            routeCount fs s t = 1 ∧ directCount fd s t = 1) ∧
          (¬ Reach (ER Direction.directed weightedGraph) s t →
            routeCount fs s t = 0 ∧ directCount fd s t = 0))) ∧
    (∃ qs es, dijkstra_every_path Direction.directed weightedGraph = Except.ok qs ∧
      dijkstra_every_distance Direction.directed weightedGraph = Except.ok es ∧
      (∀ s t : Fin 4,
        (Reach (ER Direction.directed weightedGraph) s t →
          routeCount qs s t = 1 ∧ directCount es s t = 1) ∧
        (¬ Reach (ER Direction.directed weightedGraph) s t →
          routeCount qs s t = 0 ∧ directCount es s t = 0)) ∧
      (∀ s : Fin 4, ∃ fs fd,
        dijkstra_path_from Direction.directed weightedGraph s = Except.ok fs ∧
        dijkstra_distance_from Direction.directed weightedGraph s = Except.ok fd ∧
        ∀ t : Fin 4,
          (Reach (ER Direction.directed weightedGraph) s t →
            routeCount fs s t = 1 ∧ directCount fd s t = 1) ∧
          (¬ Reach (ER Direction.directed weightedGraph) s t →
            routeCount fs s t = 0 ∧ directCount fd s t = 0))) :=
  shortest_path_completeness Direction.directed weightedGraph
    (noNegCycle_of_edges_nonneg (by decide))

/-- The value the relaxation of pair `(i,j)` through `k` would store, as a
function of the three cells it reads. -/
def relaxFun {n : Nat} (t : Table n) (k i j : Fin n) : Option (Int × List (Fin n)) :=
  match t i k, t k j with
  | some (c1, p1), some (c2, p2) =>
    match t i j with
    | none => some (c1 + c2, p1 ++ k :: p2)
    | some (c0, p0) =>
      if c1 + c2 < c0 then some (c1 + c2, p1 ++ k :: p2) else some (c0, p0)
  | _, _ => t i j

theorem relaxFun_congr {n : Nat} {t t' : Table n} {k i j : Fin n}
    (h1 : t i k = t' i k) (h2 : t k j = t' k j) (h0 : t i j = t' i j) :
    relaxFun t k i j = relaxFun t' k i j := by
  unfold relaxFun
  rw [h1, h2, h0]

theorem relaxPair_eval {n : Nat} (k : Fin n) (t : Table n) (ij : Fin n × Fin n)
    (a b : Fin n) :
    relaxPair k t ij a b =
      if a = ij.1 ∧ b = ij.2 then relaxFun t k ij.1 ij.2 else t a b := by
  have hfall : ∀ h : relaxPair k t ij = t, relaxPair k t ij a b =
      if a = ij.1 ∧ b = ij.2 then t ij.1 ij.2 else t a b := by
    intro h
    rw [h]
    by_cases hab : a = ij.1 ∧ b = ij.2
    · rw [if_pos hab, hab.1, hab.2]
    · rw [if_neg hab]
  rcases h1 : t ij.1 k with _ | ⟨c1, p1⟩
  · have : relaxFun t k ij.1 ij.2 = t ij.1 ij.2 := by unfold relaxFun; rw [h1]
    rw [this]
    exact hfall (relaxPair_nleft h1)
  rcases h2 : t k ij.2 with _ | ⟨c2, p2⟩
  · have : relaxFun t k ij.1 ij.2 = t ij.1 ij.2 := by
      unfold relaxFun
      rw [h1, h2]
    rw [this]
    exact hfall (relaxPair_nright h1 h2)
  rcases h0 : t ij.1 ij.2 with _ | ⟨c0, p0⟩
  · have hv : relaxFun t k ij.1 ij.2 = some (c1 + c2, p1 ++ k :: p2) := by
      unfold relaxFun
      rw [h1, h2]
      dsimp only
      rw [h0]
    rw [relaxPair_new h1 h2 h0, hv]
    unfold upd
    rfl
  · by_cases hlt : c1 + c2 < c0
    · have hv : relaxFun t k ij.1 ij.2 = some (c1 + c2, p1 ++ k :: p2) := by
        unfold relaxFun
        rw [h1, h2]
        dsimp only
        rw [h0]
        dsimp only
        rw [if_pos hlt]
      rw [relaxPair_improve h1 h2 h0 hlt, hv]
      unfold upd
      rfl
    · have hv : relaxFun t k ij.1 ij.2 = some (c0, p0) := by
        unfold relaxFun
        rw [h1, h2]
        dsimp only
        rw [h0]
        dsimp only
        rw [if_neg hlt]
      rw [hv, ← h0]
      exact hfall (relaxPair_keep h1 h2 h0 hlt)

theorem relaxFun_col_fix {n : Nat} {t : Table n} {k : Fin n}
    (hd : ∀ c p, t k k = some (c, p) → 0 ≤ c) (a : Fin n) :
    relaxFun t k a k = t a k := by
  unfold relaxFun
  rcases h1 : t a k with _ | ⟨c1, p1⟩
  · rfl
  · rcases hk : t k k with _ | ⟨ck, pk⟩
    · rfl
    · have hck := hd ck pk hk
      dsimp only
      rw [if_neg (by omega : ¬ c1 + ck < c1)]

theorem relaxFun_row_fix {n : Nat} {t : Table n} {k : Fin n}
    (hd : ∀ c p, t k k = some (c, p) → 0 ≤ c) (b : Fin n) :
    relaxFun t k k b = t k b := by
  unfold relaxFun
  rcases hk : t k k with _ | ⟨ck, pk⟩
  · rfl
  · rcases h2 : t k b with _ | ⟨c2, p2⟩
    · rfl
    · have hck := hd ck pk hk
      dsimp only
      rw [if_neg (by omega : ¬ ck + c2 < c2)]

theorem relaxPair_rowcol_eq {n : Nat} {k : Fin n} {t : Table n}
    (hd : ∀ c p, t k k = some (c, p) → 0 ≤ c) (ij : Fin n × Fin n) (a : Fin n) :
    ((relaxPair k t ij) a k = t a k) ∧ ((relaxPair k t ij) k a = t k a) := by
  constructor
  · rw [relaxPair_eval]
    by_cases hak : a = ij.1 ∧ k = ij.2
    · rw [if_pos hak, ← hak.2, relaxFun_col_fix hd, hak.1]
    · rw [if_neg hak]
  · rw [relaxPair_eval]
    by_cases hka : k = ij.1 ∧ a = ij.2
    · rw [if_pos hka, ← hka.1, relaxFun_row_fix hd, hka.2]
    · rw [if_neg hka]

theorem foldl_relax_spec {n : Nat} {t0 : Table n} {k : Fin n}
    (hd : ∀ c p, t0 k k = some (c, p) → 0 ≤ c) :
    ∀ (l : List (Fin n × Fin n)), l.Nodup → ∀ acc : Table n,
      ((∀ a, acc a k = t0 a k) ∧ (∀ b, acc k b = t0 k b)) →
      (∀ a b, (a, b) ∈ l → acc a b = t0 a b) →
      ∀ a b, (l.foldl (relaxPair k) acc) a b =
        if (a, b) ∈ l then relaxFun t0 k a b else acc a b := by
  intro l
  induction l with
  | nil =>
    intro _ acc _ _ a b
    simp
  | cons x xs ih =>
    intro hnd acc hrc hin a b
    have hxmem : x ∉ xs := (List.nodup_cons.mp hnd).1
    have hdacc : ∀ c p, acc k k = some (c, p) → 0 ≤ c := by
      intro c p hc
      rw [hrc.1 k] at hc
      exact hd c p hc
    have hrc' : (∀ a, (relaxPair k acc x) a k = t0 a k) ∧
        (∀ b, (relaxPair k acc x) k b = t0 k b) :=
      ⟨fun a => ((relaxPair_rowcol_eq hdacc x a).1).trans (hrc.1 a),
       fun b => ((relaxPair_rowcol_eq hdacc x b).2).trans (hrc.2 b)⟩
    have hin' : ∀ a b, (a, b) ∈ xs → (relaxPair k acc x) a b = t0 a b := by
      intro a b hab
      rw [relaxPair_eval]
      have hne : ¬(a = x.1 ∧ b = x.2) := by
        intro hcon
        exact hxmem ((Prod.ext hcon.1 hcon.2 : (a, b) = x) ▸ hab)
      rw [if_neg hne]
      exact hin a b (List.mem_cons_of_mem _ hab)
    have hmain := ih (List.nodup_cons.mp hnd).2 (relaxPair k acc x) hrc' hin'
    rw [List.foldl_cons, hmain a b]
    by_cases hxs : (a, b) ∈ xs
    · rw [if_pos hxs, if_pos (List.mem_cons_of_mem _ hxs)]
    · rw [if_neg hxs]
      by_cases hx : (a, b) = x
      · rw [if_pos (hx ▸ List.mem_cons_self x xs)]
        rw [relaxPair_eval]
        have hsplit : a = x.1 ∧ b = x.2 :=
          ⟨congrArg Prod.fst hx, congrArg Prod.snd hx⟩
        rw [if_pos hsplit]
        refine (relaxFun_congr (hrc.1 x.1) (hrc.2 x.2) ?_).trans ?_
        · exact hin x.1 x.2 (by
            have : (x.1, x.2) = x := rfl
            rw [this]
            exact List.mem_cons_self x xs)
        · rw [hsplit.1, hsplit.2]
      · rw [if_neg (by
          intro hmem
          rcases List.mem_cons.mp hmem with h | h
          · exact hx h
          · exact hxs h)]
        rw [relaxPair_eval]
        rw [if_neg (fun hcon => hx (Prod.ext hcon.1 hcon.2))]

/-- Snapshot semantics: when the pivot's self-distance is nonnegative, the
in-place round through `k` equals the simultaneous update of all pairs from
the table at the start of the round. -/
theorem stepK_eval {n : Nat} (t0 : Table n) (k : Fin n)
    (hd : ∀ c p, t0 k k = some (c, p) → 0 ≤ c) (a b : Fin n) :
    stepK k t0 a b = relaxFun t0 k a b := by
  have h := foldl_relax_spec hd (pairList n) (pairList_nodup n) t0
    ⟨fun _ => rfl, fun _ => rfl⟩ (fun _ _ _ => rfl) a b
  unfold stepK
  rw [h, if_pos (mem_pairList a b)]

/-- Cost-level symmetry of a matrix. -/
def symC {n : Nat} (t : Table n) : Prop :=
  ∀ a b, (t a b).map Prod.fst = (t b a).map Prod.fst

theorem of_cost_eq {n : Nat} {x y : Option (Int × List (Fin n))}
    (h : x.map Prod.fst = y.map Prod.fst) :
    (x = none ∧ y = none) ∨ ∃ c px py, x = some (c, px) ∧ y = some (c, py) := by
  rcases hx : x with _ | ⟨c, px⟩
  · rcases hy : y with _ | ⟨c', py⟩
    · exact Or.inl ⟨rfl, rfl⟩
    · rw [hx, hy] at h
      exact absurd h (by simp)
  · rcases hy : y with _ | ⟨c', py⟩
    · rw [hx, hy] at h
      exact absurd h (by simp)
    · rw [hx, hy] at h
      simp only [Option.map_some'] at h
      injection h with h'
      exact Or.inr ⟨c, px, py, rfl, by rw [h']⟩

theorem relaxFun_symC {n : Nat} {t : Table n} (hs : symC t) (k a b : Fin n) :
    (relaxFun t k a b).map Prod.fst = (relaxFun t k b a).map Prod.fst := by
  rcases of_cost_eq (hs a k) with ⟨h1, h1'⟩ | ⟨c1, p1, q1, h1, h1'⟩
  · have hL : relaxFun t k a b = t a b := by
      unfold relaxFun
      rw [h1]
    have hR : relaxFun t k b a = t b a := by
      unfold relaxFun
      rcases h2 : t b k with _ | ⟨c2, p2⟩
      · rfl
      · rw [h1']
    rw [hL, hR]
    exact hs a b
  · rcases of_cost_eq (hs k b) with ⟨h2, h2'⟩ | ⟨c2, p2, q2, h2, h2'⟩
    · have hL : relaxFun t k a b = t a b := by
        unfold relaxFun
        rw [h1, h2]
      have hR : relaxFun t k b a = t b a := by
        unfold relaxFun
        rw [h2']
      rw [hL, hR]
      exact hs a b
    · rcases of_cost_eq (hs a b) with ⟨h0, h0'⟩ | ⟨c0, p0, q0, h0, h0'⟩
      · have hL : relaxFun t k a b = some (c1 + c2, p1 ++ k :: p2) := by
          unfold relaxFun
          rw [h1, h2]
          dsimp only
          rw [h0]
        have hR : relaxFun t k b a = some (c2 + c1, q2 ++ k :: q1) := by
          unfold relaxFun
          rw [h2', h1']
          dsimp only
          rw [h0']
        rw [hL, hR]
        simp [add_comm]
      · by_cases hlt : c1 + c2 < c0
        · have hL : relaxFun t k a b = some (c1 + c2, p1 ++ k :: p2) := by
            unfold relaxFun
            rw [h1, h2]
            dsimp only
            rw [h0]
            dsimp only
            rw [if_pos hlt]
          have hR : relaxFun t k b a = some (c2 + c1, q2 ++ k :: q1) := by
            unfold relaxFun
            rw [h2', h1']
            dsimp only
            rw [h0']
            dsimp only
            rw [if_pos (by omega : c2 + c1 < c0)]
          rw [hL, hR]
          simp [add_comm]
        · have hL : relaxFun t k a b = some (c0, p0) := by
            unfold relaxFun
            rw [h1, h2]
            dsimp only
            rw [h0]
            dsimp only
            rw [if_neg hlt]
          have hR : relaxFun t k b a = some (c0, q0) := by
            unfold relaxFun
            rw [h2', h1']
            dsimp only
            rw [h0']
            dsimp only
            rw [if_neg (by omega : ¬ c2 + c1 < c0)]
          rw [hL, hR]
          simp

theorem symC_foldl {n : Nat} :
    ∀ (ks : List (Fin n)) (t : Table n), symC t →
      (∀ (k' : Fin n) (c : Int) (p : List (Fin n)),
        (ks.foldl (fun t k => stepK k t) t) k' k' = some (c, p) → 0 ≤ c) →
      symC (ks.foldl (fun t k => stepK k t) t) := by
  intro ks
  induction ks with
  | nil => intro t hs _; exact hs
  | cons k ks ih =>
    intro t hs hdiag
    rw [List.foldl_cons] at hdiag ⊢
    have hle : tableLe (stepK k t)
        (ks.foldl (fun t k => stepK k t) (stepK k t)) :=
      foldl_rel _ tableLe tableLe_refl (fun _ _ _ => tableLe_trans)
        (fun t' k' => refines_tableLe (stepK_refines k' t')) ks _
    have hle0 : tableLe t (ks.foldl (fun t k => stepK k t) (stepK k t)) :=
      tableLe_trans (refines_tableLe (stepK_refines k t)) hle
    have hd : ∀ c p, t k k = some (c, p) → 0 ≤ c := by
      intro c p hc
      obtain ⟨c', p', hc', hle'⟩ := hle0 k k c p hc
      have := hdiag k c' p' hc'
      omega
    have hstep : symC (stepK k t) := by
      intro a b
      rw [stepK_eval t k hd a b, stepK_eval t k hd b a]
      exact relaxFun_symC hs k a b
    exact ih (stepK k t) hstep hdiag

/-- Minimum update on an optional cost cell. -/
def minUpd (a : Option Int) (c : Int) : Option Int :=
  match a with
  | none => some c
  | some c0 => if c < c0 then some c else some c0

theorem minUpd_none (c : Int) : minUpd none c = some c := rfl

theorem minUpd_some (c0 c : Int) : minUpd (some c0) c = some (min c c0) := by
  unfold minUpd
  dsimp only
  by_cases h : c < c0
  · rw [if_pos h, min_eq_left (le_of_lt h)]
  · rw [if_neg h, min_eq_right (not_lt.mp h)]

theorem minUpd_right_comm (acc : Option Int) (c d : Int) :
    minUpd (minUpd acc c) d = minUpd (minUpd acc d) c := by
  rcases acc with _ | c0
  · rw [minUpd_none, minUpd_none, minUpd_some, minUpd_some, min_comm]
  · rw [minUpd_some, minUpd_some, minUpd_some, minUpd_some, min_left_comm]

theorem insertEdge_cost_eval {n : Nat} (t : Table n) (e : Fin n × Fin n × Int)
    (a b : Fin n) :
    ((insertEdge t e) a b).map Prod.fst =
      if e.1 = a ∧ e.2.1 = b then minUpd ((t a b).map Prod.fst) e.2.2
      else (t a b).map Prod.fst := by
  rcases h1 : t e.1 e.2.1 with _ | ⟨c0, p0⟩
  · rw [insertEdge_none h1]
    by_cases hab : e.1 = a ∧ e.2.1 = b
    · rw [if_pos hab, ← hab.1, ← hab.2, upd_self, h1]
      rfl
    · have hab' : ¬ (a = e.1 ∧ b = e.2.1) := fun hc => hab ⟨hc.1.symm, hc.2.symm⟩
      rw [if_neg hab, upd_ne _ _ _ _ _ _ hab']
  · by_cases hlt : e.2.2 < c0
    · rw [insertEdge_lt h1 hlt]
      by_cases hab : e.1 = a ∧ e.2.1 = b
      · rw [if_pos hab, ← hab.1, ← hab.2, upd_self, h1]
        simp only [Option.map_some']
        rw [minUpd_some, min_eq_left (le_of_lt hlt)]
      · have hab' : ¬ (a = e.1 ∧ b = e.2.1) := fun hc => hab ⟨hc.1.symm, hc.2.symm⟩
        rw [if_neg hab, upd_ne _ _ _ _ _ _ hab']
    · rw [insertEdge_ge h1 hlt]
      by_cases hab : e.1 = a ∧ e.2.1 = b
      · rw [if_pos hab, ← hab.1, ← hab.2, h1]
        simp only [Option.map_some']
        rw [minUpd_some, min_eq_right (not_lt.mp hlt)]
      · rw [if_neg hab]

/-- The list of costs of edges joining `a` to `b` in an edge list. -/
def costsFor {n : Nat} (es : List (Fin n × Fin n × Int)) (a b : Fin n) : List Int :=
  es.filterMap (fun e => if e.1 = a ∧ e.2.1 = b then some e.2.2 else none)

theorem initTable_cost {n : Nat} (dir : Direction) (g : FWGraph n) (a b : Fin n) :
    ((initTable dir g) a b).map Prod.fst =
      (costsFor (edgeList dir g) a b).foldl minUpd
        (if a = b then some (0 : Int) else none) := by
  suffices h : ∀ (es : List (Fin n × Fin n × Int)) (t : Table n) (acc : Option Int),
      (t a b).map Prod.fst = acc →
      ((es.foldl insertEdge t) a b).map Prod.fst = (costsFor es a b).foldl minUpd acc by
    apply h
    unfold diagTable
    by_cases hab : a = b <;> simp [hab]
  intro es
  induction es with
  | nil =>
    intro t acc h
    simpa [costsFor] using h
  | cons e es ih =>
    intro t acc h
    rw [List.foldl_cons]
    by_cases hab : e.1 = a ∧ e.2.1 = b
    · have hc : costsFor (e :: es) a b = e.2.2 :: costsFor es a b := by
        simp [costsFor, hab]
      rw [hc, List.foldl_cons]
      apply ih
      rw [insertEdge_cost_eval, if_pos hab, h]
    · have hc : costsFor (e :: es) a b = costsFor es a b := by
        simp [costsFor, hab]
      rw [hc]
      apply ih
      rw [insertEdge_cost_eval, if_neg hab, h]

theorem costsFor_append {n : Nat} (es1 es2 : List (Fin n × Fin n × Int)) (a b : Fin n) :
    costsFor (es1 ++ es2) a b = costsFor es1 a b ++ costsFor es2 a b := by
  unfold costsFor
  rw [List.filterMap_append]

theorem costsFor_swap {n : Nat} (es : List (Fin n × Fin n × Int)) (a b : Fin n) :
    costsFor (es.map (fun e => (e.2.1, e.1, e.2.2))) a b = costsFor es b a := by
  unfold costsFor
  rw [List.filterMap_map]
  apply List.filterMap_congr
  intro e _
  show (if e.2.1 = a ∧ e.1 = b then some e.2.2 else none) =
    (if e.1 = b ∧ e.2.1 = a then some e.2.2 else none)
  by_cases h : e.2.1 = a ∧ e.1 = b
  · rw [if_pos h, if_pos ⟨h.2, h.1⟩]
  · rw [if_neg h, if_neg (fun hc => h ⟨hc.2, hc.1⟩)]

theorem initTable_symC {n : Nat} (g : FWGraph n) :
    symC (initTable Direction.undirected g) := by
  intro a b
  rw [initTable_cost, initTable_cost]
  have hbase : (if a = b then some (0 : Int) else none) =
      (if b = a then some (0 : Int) else none) := by
    by_cases hab : a = b
    · rw [if_pos hab, if_pos hab.symm]
    · rw [if_neg hab, if_neg (fun h => hab h.symm)]
  have hlist : List.Perm (costsFor (edgeList Direction.undirected g) a b)
      (costsFor (edgeList Direction.undirected g) b a) := by
    show List.Perm (costsFor (g.edges ++ g.edges.map (fun e => (e.2.1, e.1, e.2.2))) a b)
      (costsFor (g.edges ++ g.edges.map (fun e => (e.2.1, e.1, e.2.2))) b a)
    rw [costsFor_append, costsFor_append, costsFor_swap, costsFor_swap]
    exact List.perm_append_comm
  rw [hbase]
  exact hlist.foldl_eq'
    (fun x _ y _ z => minUpd_right_comm z x y) _

/-- A successful undirected run has a cost-symmetric final matrix. -/
theorem fwTable_symC {n : Nat} (g : FWGraph n)
    (hs : negParticipants (fwTable Direction.undirected g) = []) :
    symC (fwTable Direction.undirected g) := by
  have h := symC_foldl (List.finRange n) (initTable Direction.undirected g)
    (initTable_symC g) ?_
  · exact h
  · intro k c p hk
    exact (negParticipants_nil_iff (fwTable Direction.undirected g)).mp hs k c p hk

/-- A two-node directed graph with a single edge, witnessing that directed
distances need not be symmetric. -/
def asymGraph : FWGraph 2 :=
  { edges := [(0, 1, 1)] }

/-- C6: under the undirected configuration the shortest distance from s to t
always equals the shortest distance from t to s; under the directed
configuration this symmetry is not required (witnessed by a concrete graph
where it fails). -/
theorem fw_undirected_distance_symmetric :
    (∀ (n : Nat) (g : FWGraph n) (s t : Fin n),
      distance_between Direction.undirected g s t =
        distance_between Direction.undirected g t s) ∧
    distance_between Direction.directed asymGraph 0 1 ≠
      distance_between Direction.directed asymGraph 1 0 := by
  constructor
  · intro n g s t
    unfold distance_between
    rw [negParticipantsD_agree (fwDistTable_agree Direction.undirected g)]
    rcases hps : negParticipants (fwTable Direction.undirected g) with _ | ⟨q, qs⟩
    · rw [fwDistTable_agree Direction.undirected g s t,
        fwDistTable_agree Direction.undirected g t s]
      exact fwTable_symC g hps s t
    · rfl
  · decide

/-- The semantic content of the `DijkstraMeasure` contract of
`dijkstra/measure.rs` (`Clone + PartialOrd + Ord + AddRef<Self, Output = Self>
+ Zero`): a Boolean comparison that is a total order (totality, reflexivity,
transitivity, antisymmetry, as required by `Ord`) and a zero that is a
two-sided additive identity for an addition taking two borrowed values to an
owned one (modelled as a total binary function). -/
def IsDijkstraMeasure {α : Type} (zero : α) (add_ref : α → α → α)
    (ble : α → α → Bool) : Prop :=
  (∀ x y, ble x y = true ∨ ble y x = true) ∧
  (∀ x, ble x x = true) ∧
  (∀ x y z, ble x y = true → ble y z = true → ble x z = true) ∧
  (∀ x y, ble x y = true → ble y x = true → x = y) ∧
  (∀ x, add_ref zero x = x) ∧
  (∀ x, add_ref x zero = x)

/-- Values of a `w`-bit unsigned machine integer (`u8` ... `u128`, `usize`,
and their `Wrapping`/`Saturating` variants share this carrier). -/
def UBits (w : Nat) : Type := {x : Int // 0 ≤ x ∧ x < 2 ^ w}

/-- Values of a `(w+1)`-bit signed two's-complement machine integer
(`i8` = `SBits 7`, ...). -/
def SBits (w : Nat) : Type := {x : Int // -(2 ^ w) ≤ x ∧ x < 2 ^ w}

def ubitsZero (w : Nat) : UBits w :=
  ⟨0, le_refl 0, pow_pos (by norm_num) w⟩

def sbitsZero (w : Nat) : SBits w :=
  ⟨0, by
    have h : (0 : Int) < 2 ^ w := pow_pos (by norm_num) w
    constructor <;> omega⟩

/-- Wrapping addition of unsigned `w`-bit integers (the release-mode and
`Wrapping` semantics of `+`). -/
def ubitsWrapAdd {w : Nat} (a b : UBits w) : UBits w :=
  ⟨(a.val + b.val) % 2 ^ w,
    Int.emod_nonneg _ (ne_of_gt (pow_pos (by norm_num) w)),
    Int.emod_lt_of_pos _ (pow_pos (by norm_num) w)⟩

/-- Saturating addition of unsigned `w`-bit integers. -/
def ubitsSatAdd {w : Nat} (a b : UBits w) : UBits w :=
  ⟨min (a.val + b.val) (2 ^ w - 1), by
    have h : (0 : Int) < 2 ^ w := pow_pos (by norm_num) w
    obtain ⟨ha1, ha2⟩ := a.2
    obtain ⟨hb1, hb2⟩ := b.2
    constructor <;> omega⟩

/-- Wrapping (two's-complement) addition of signed integers. -/
def sbitsWrapAdd {w : Nat} (a b : SBits w) : SBits w :=
  ⟨(a.val + b.val + 2 ^ w) % 2 ^ (w + 1) - 2 ^ w, by
    have hm : (2 : Int) ^ (w + 1) = 2 * 2 ^ w := by rw [pow_succ]; ring
    have h : (0 : Int) < 2 ^ (w + 1) := pow_pos (by norm_num) (w + 1)
    have h1 := Int.emod_nonneg (a.val + b.val + 2 ^ w) (ne_of_gt h)
    have h2 := Int.emod_lt_of_pos (a.val + b.val + 2 ^ w) h
    constructor <;> omega⟩

/-- Saturating addition of signed integers. -/
def sbitsSatAdd {w : Nat} (a b : SBits w) : SBits w :=
  ⟨max (-(2 ^ w)) (min (a.val + b.val) (2 ^ w - 1)), by
    have h : (0 : Int) < 2 ^ w := pow_pos (by norm_num) w
    obtain ⟨ha1, ha2⟩ := a.2
    obtain ⟨hb1, hb2⟩ := b.2
    constructor <;> omega⟩

def ubitsLe {w : Nat} (a b : UBits w) : Bool := decide (a.val ≤ b.val)

def sbitsLe {w : Nat} (a b : SBits w) : Bool := decide (a.val ≤ b.val)

theorem ubits_val_inj {w : Nat} {a b : UBits w} (h : a.val = b.val) : a = b :=
  Subtype.ext h

/-- A value of `f32`/`f64` as relevant to ordering: either NaN (`none`) or an
ordinary totally ordered numeric value.  `partial_cmp` returns nothing when
either operand is NaN, so `<=` is false there, which is exactly why the
floating-point types do not implement `Ord`. -/
def IEEERepr : Type := Option ℚ

/-- The IEEE-style partial comparison: false whenever either operand is NaN. -/
def ieeeLe (x y : IEEERepr) : Bool :=
  match x, y with
  | some a, some b => decide (a ≤ b)
  | _, _ => false

/-- Comparison of the NaN-free wrapper (`ordered_float::NotNan`): the IEEE
comparison restricted to non-NaN values, a total order. -/
def notNanLe (a b : ℚ) : Bool := decide (a ≤ b)

/-- Addition of the NaN-free wrapper. -/
def notNanAdd (a b : ℚ) : ℚ := a + b

theorem ubitsLe_order (w : Nat) :
    (∀ x y : UBits w, ubitsLe x y = true ∨ ubitsLe y x = true) ∧
    (∀ x : UBits w, ubitsLe x x = true) ∧
    (∀ x y z : UBits w, ubitsLe x y = true → ubitsLe y z = true → ubitsLe x z = true) ∧
    (∀ x y : UBits w, ubitsLe x y = true → ubitsLe y x = true → x = y) := by
  refine ⟨?_, ?_, ?_, ?_⟩
  · intro x y
    simp only [ubitsLe, decide_eq_true_eq]
    omega
  · intro x
    simp [ubitsLe]
  · intro x y z
    simp only [ubitsLe, decide_eq_true_eq]
    omega
  · intro x y h1 h2
    simp only [ubitsLe, decide_eq_true_eq] at h1 h2
    exact Subtype.ext (by omega)

theorem sbitsLe_order (w : Nat) :
    (∀ x y : SBits w, sbitsLe x y = true ∨ sbitsLe y x = true) ∧
    (∀ x : SBits w, sbitsLe x x = true) ∧
    (∀ x y z : SBits w, sbitsLe x y = true → sbitsLe y z = true → sbitsLe x z = true) ∧
    (∀ x y : SBits w, sbitsLe x y = true → sbitsLe y x = true → x = y) := by
  refine ⟨?_, ?_, ?_, ?_⟩
  · intro x y
    simp only [sbitsLe, decide_eq_true_eq]
    omega
  · intro x
    simp [sbitsLe]
  · intro x y z
    simp only [sbitsLe, decide_eq_true_eq]
    omega
  · intro x y h1 h2
    simp only [sbitsLe, decide_eq_true_eq] at h1 h2
    exact Subtype.ext (by omega)

/-- C7: every fixed-width unsigned and signed machine-integer carrier, under
both wrapping and saturating addition (covering the plain types, whose
addition agrees with wrapping on its defined range, and the `Wrapping` /
`Saturating` variants asserted by the doc examples of `measure.rs`),
satisfies the Dijkstra cost-measure contract; no zero and addition can make
the raw IEEE comparison (with NaN) a measure, because NaN breaks totality of
the order; and the NaN-free wrapper satisfies the contract, its comparison
agreeing with the IEEE comparison on non-NaN values. -/
theorem dijkstra_measure_contract :
    (∀ w : Nat, IsDijkstraMeasure (ubitsZero w) ubitsWrapAdd ubitsLe) ∧
    (∀ w : Nat, IsDijkstraMeasure (ubitsZero w) ubitsSatAdd ubitsLe) ∧
    (∀ w : Nat, IsDijkstraMeasure (sbitsZero w) sbitsWrapAdd sbitsLe) ∧
    (∀ w : Nat, IsDijkstraMeasure (sbitsZero w) sbitsSatAdd sbitsLe) ∧
    (∀ (zero : IEEERepr) (add : IEEERepr → IEEERepr → IEEERepr),
      ¬ IsDijkstraMeasure zero add ieeeLe) ∧
    IsDijkstraMeasure (0 : ℚ) notNanAdd notNanLe ∧
    (∀ a b : ℚ, notNanLe a b = ieeeLe (some a) (some b)) := by
  refine ⟨?_, ?_, ?_, ?_, ?_, ?_, ?_⟩
  · intro w
    obtain ⟨ht, hr, htr, ha⟩ := ubitsLe_order w
    refine ⟨ht, hr, htr, ha, ?_, ?_⟩
    · intro x
      apply Subtype.ext
      show (0 + x.val) % 2 ^ w = x.val
      rw [zero_add, Int.emod_eq_of_lt x.2.1 x.2.2]
    · intro x
      apply Subtype.ext
      show (x.val + 0) % 2 ^ w = x.val
      rw [add_zero, Int.emod_eq_of_lt x.2.1 x.2.2]
  · intro w
    obtain ⟨ht, hr, htr, ha⟩ := ubitsLe_order w
    refine ⟨ht, hr, htr, ha, ?_, ?_⟩
    · intro x
      apply Subtype.ext
      show min (0 + x.val) (2 ^ w - 1) = x.val
      obtain ⟨h1, h2⟩ := x.2
      omega
    · intro x
      apply Subtype.ext
      show min (x.val + 0) (2 ^ w - 1) = x.val
      obtain ⟨h1, h2⟩ := x.2
      omega
  · intro w
    obtain ⟨ht, hr, htr, ha⟩ := sbitsLe_order w
    have hm : (2 : Int) ^ (w + 1) = 2 * 2 ^ w := by rw [pow_succ]; ring
    refine ⟨ht, hr, htr, ha, ?_, ?_⟩
    · intro x
      apply Subtype.ext
      show (0 + x.val + 2 ^ w) % 2 ^ (w + 1) - 2 ^ w = x.val
      obtain ⟨h1, h2⟩ := x.2
      rw [Int.emod_eq_of_lt (by omega) (by omega)]
      omega
    · intro x
      apply Subtype.ext
      show (x.val + 0 + 2 ^ w) % 2 ^ (w + 1) - 2 ^ w = x.val
      obtain ⟨h1, h2⟩ := x.2
      rw [Int.emod_eq_of_lt (by omega) (by omega)]
      omega
  · intro w
    obtain ⟨ht, hr, htr, ha⟩ := sbitsLe_order w
    refine ⟨ht, hr, htr, ha, ?_, ?_⟩
    · intro x
      apply Subtype.ext
      show max (-(2 ^ w)) (min (0 + x.val) (2 ^ w - 1)) = x.val
      obtain ⟨h1, h2⟩ := x.2
      omega
    · intro x
      apply Subtype.ext
      show max (-(2 ^ w)) (min (x.val + 0) (2 ^ w - 1)) = x.val
      obtain ⟨h1, h2⟩ := x.2
      omega
  · intro zero add h
    rcases h.1 none none with hc | hc <;> exact absurd hc (by decide)
  · refine ⟨?_, ?_, ?_, ?_, ?_, ?_⟩
    · intro x y
      simp only [notNanLe, decide_eq_true_eq]
      exact le_total x y
    · intro x
      simp [notNanLe]
    · intro x y z
      simp only [notNanLe, decide_eq_true_eq]
      exact le_trans
    · intro x y h1 h2
      simp only [notNanLe, decide_eq_true_eq] at h1 h2
      exact le_antisymm h1 h2
    · intro x
      exact zero_add x
    · intro x
      exact add_zero x
  · intro a b
    rfl

/-- The slice of the `NodeIndexable` graph interface used by `OrderMap`:
a node-to-index function and the graph's `node_bound`. -/
structure NodeIndexer (N : Type) : Type where
  to_index : N → Nat
  node_bound : Nat

/-- A bijective map between node indices and their position in a topological
order, as in `src/acyclic/order_map.rs`: the order as a vector of nodes and
its inverse as a vector of positions indexed by node index. -/
structure OrderMap (N : Type) : Type where
  order : List N
  order_inv : List Nat

/-- `Vec::resize(new_len, 0)`: truncate to `new_len` or extend with zeros. -/
def vecResize (l : List Nat) (newLen : Nat) : List Nat :=
  l.take newLen ++ List.replicate (newLen - l.length) 0

/-- The inverse-filling loop of `try_from_graph`: for each position `i` of
the order, write `i` at index `to_index(order[i])`. -/
def fillInv {N : Type} (g : NodeIndexer N) : Nat → List N → List Nat → List Nat
  | _, [], inv => inv
  | i, id :: rest, inv => fillInv g (i + 1) rest (inv.set (g.to_index id) i)

/-- `OrderMap::try_from_graph` with the output of `toposort` passed in as
`order`.  Modelled from the spec: `toposort` itself is not in the source
excerpt (the spec places the topological-order subsystem out of scope), so
its output is a parameter; the contract assumed of a topological order of an
acyclic graph — each node listed at most once, with index below
`node_bound` — appears as hypotheses of the theorems below. -/
def OrderMap.try_from_graph {N : Type} (order : List N) (g : NodeIndexer N) :
    OrderMap N :=
  { order := order,
    order_inv := fillInv g 0 order (List.replicate g.node_bound 0) }

/-- `OrderMap::get_order`: map a node to its position in the topological
order (indexing is total in Rust and panics out of range; the invariant
keeps the access in bounds, so the default value is never taken). -/
def OrderMap.get_order {N : Type} (m : OrderMap N) (id : N) (g : NodeIndexer N) :
    Nat :=
  m.order_inv.getD (g.to_index id) 0

/-- `OrderMap::get_node`: map a position to a node; the out-of-range access,
which panics in Rust, is modelled as `none`. -/
def OrderMap.get_node {N : Type} (m : OrderMap N) (pos : Nat) : Option N :=
  m.order.get? pos

/-- `OrderMap::add_node`: push the node at the end of the order, resize the
inverse to `node_bound` if the node's index does not fit, and record the new
position. -/
def OrderMap.add_node {N : Type} (m : OrderMap N) (id : N) (g : NodeIndexer N) :
    OrderMap N :=
  let order := m.order ++ [id]
  let pos := order.length - 1
  let idx := g.to_index id
  let inv :=
    if m.order_inv.length ≤ idx then vecResize m.order_inv g.node_bound
    else m.order_inv
  { order := order, order_inv := inv.set idx pos }

/-- The bijectivity invariant of an order map: the inverse returns the
position of every stored node, every stored node's index is in range of the
inverse, and stored nodes have pairwise distinct indices. -/
def OrderMap.Inv {N : Type} (g : NodeIndexer N) (m : OrderMap N) : Prop :=
  (∀ (i : Nat) (h : i < m.order.length),
    m.order_inv.getD (g.to_index (m.order.get ⟨i, h⟩)) 0 = i) ∧
  (∀ id ∈ m.order, g.to_index id < m.order_inv.length) ∧
  (m.order.map g.to_index).Nodup

theorem getD_set_self : ∀ (l : List Nat) (k v : Nat), k < l.length →
    (l.set k v).getD k 0 = v := by
  intro l
  induction l with
  | nil => intro k v h; simp at h
  | cons a l ih =>
    intro k v h
    cases k with
    | zero => rfl
    | succ k =>
      simp only [List.set_cons_succ, List.getD_cons_succ]
      exact ih k v (by simpa using h)

theorem getD_set_ne : ∀ (l : List Nat) (k x v : Nat), x ≠ k →
    (l.set k v).getD x 0 = l.getD x 0 := by
  intro l
  induction l with
  | nil => intro k x v _; rfl
  | cons a l ih =>
    intro k x v hne
    cases k with
    | zero =>
      cases x with
      | zero => exact absurd rfl hne
      | succ x => rfl
    | succ k =>
      cases x with
      | zero => rfl
      | succ x =>
        simp only [List.set_cons_succ, List.getD_cons_succ]
        exact ih k x v (fun h => hne (by rw [h]))

theorem fillInv_length {N : Type} (g : NodeIndexer N) :
    ∀ (l : List N) (i : Nat) (inv : List Nat),
      (fillInv g i l inv).length = inv.length := by
  intro l
  induction l with
  | nil => intro i inv; rfl
  | cons id rest ih =>
    intro i inv
    show (fillInv g (i + 1) rest (inv.set (g.to_index id) i)).length = inv.length
    rw [ih, List.length_set]

theorem fillInv_spec {N : Type} (g : NodeIndexer N) :
    ∀ (l : List N) (i : Nat) (inv : List Nat),
      (∀ id ∈ l, g.to_index id < inv.length) →
      ((l.map g.to_index).Nodup) →
      (∀ (j : Nat) (h : j < l.length),
        (fillInv g i l inv).getD (g.to_index (l.get ⟨j, h⟩)) 0 = i + j) ∧
      (∀ x, x ∉ l.map g.to_index → (fillInv g i l inv).getD x 0 = inv.getD x 0) := by
  intro l
  induction l with
  | nil =>
    intro i inv _ _
    exact ⟨fun j h => absurd h (by simp), fun x _ => rfl⟩
  | cons id rest ih =>
    intro i inv hb hnd
    have hnd' : (g.to_index id :: rest.map g.to_index).Nodup := by simpa using hnd
    have hhead : g.to_index id ∉ rest.map g.to_index := (List.nodup_cons.mp hnd').1
    have hbrest : ∀ id' ∈ rest, g.to_index id' < (inv.set (g.to_index id) i).length := by
      intro id' h'
      rw [List.length_set]
      exact hb id' (List.mem_cons_of_mem _ h')
    have hndrest : (rest.map g.to_index).Nodup := (List.nodup_cons.mp hnd').2
    obtain ⟨ihpos, ihrest⟩ := ih (i + 1) (inv.set (g.to_index id) i) hbrest hndrest
    constructor
    · intro j h
      cases j with
      | zero =>
        show (fillInv g (i + 1) rest (inv.set (g.to_index id) i)).getD
          (g.to_index id) 0 = i + 0
        rw [ihrest (g.to_index id) hhead,
          getD_set_self inv (g.to_index id) i (hb id (List.mem_cons_self _ _))]
        omega
      | succ j =>
        have hj : j < rest.length := by simpa using h
        have := ihpos j hj
        show (fillInv g (i + 1) rest (inv.set (g.to_index id) i)).getD
          (g.to_index (rest.get ⟨j, hj⟩)) 0 = i + (j + 1)
        rw [this]
        omega
    · intro x hx
      have hxid : x ≠ g.to_index id := by
        intro h
        exact hx (by rw [h]; exact List.mem_cons_self _ _)
      have hxrest : x ∉ rest.map g.to_index := by
        intro h
        exact hx (List.mem_cons_of_mem _ h)
      show (fillInv g (i + 1) rest (inv.set (g.to_index id) i)).getD x 0 = inv.getD x 0
      rw [ihrest x hxrest, getD_set_ne inv (g.to_index id) x i hxid]

theorem try_from_graph_Inv {N : Type} (g : NodeIndexer N) (order : List N)
    (hb : ∀ id ∈ order, g.to_index id < g.node_bound)
    (hnd : (order.map g.to_index).Nodup) :
    OrderMap.Inv g (OrderMap.try_from_graph order g) := by
  have hb' : ∀ id ∈ order, g.to_index id < (List.replicate g.node_bound (0 : Nat)).length := by
    intro id h
    rw [List.length_replicate]
    exact hb id h
  obtain ⟨hpos, _⟩ := fillInv_spec g order 0 (List.replicate g.node_bound 0) hb' hnd
  refine ⟨?_, ?_, hnd⟩
  · intro i h
    have := hpos i h
    simpa using this
  · intro id h
    show g.to_index id < (fillInv g 0 order (List.replicate g.node_bound 0)).length
    rw [fillInv_length, List.length_replicate]
    exact hb id h

theorem add_node_eval {N : Type} (m : OrderMap N) (id : N) (g : NodeIndexer N) :
    (m.add_node id g).order = m.order ++ [id] ∧
    (m.add_node id g).order_inv =
      (if m.order_inv.length ≤ g.to_index id then vecResize m.order_inv g.node_bound
       else m.order_inv).set (g.to_index id) m.order.length := by
  constructor
  · rfl
  · show (if m.order_inv.length ≤ g.to_index id then vecResize m.order_inv g.node_bound
       else m.order_inv).set (g.to_index id) ((m.order ++ [id]).length - 1) = _
    congr 1
    simp

theorem add_node_Inv {N : Type} (g : NodeIndexer N) (m : OrderMap N) (id : N)
    (hInv : OrderMap.Inv g m)
    (hfresh : g.to_index id ∉ m.order.map g.to_index)
    (hbound : g.to_index id < g.node_bound) :
    OrderMap.Inv g (m.add_node id g) := by
  obtain ⟨hpos, hb, hnd⟩ := hInv
  obtain ⟨hord, hinv⟩ := add_node_eval m id g
  have hF : (∀ x, x < m.order_inv.length →
        (if m.order_inv.length ≤ g.to_index id then vecResize m.order_inv g.node_bound
         else m.order_inv).getD x 0 = m.order_inv.getD x 0) ∧
      m.order_inv.length ≤ (if m.order_inv.length ≤ g.to_index id
        then vecResize m.order_inv g.node_bound else m.order_inv).length ∧
      g.to_index id < (if m.order_inv.length ≤ g.to_index id
        then vecResize m.order_inv g.node_bound else m.order_inv).length := by
    by_cases hle : m.order_inv.length ≤ g.to_index id
    · rw [if_pos hle]
      have hlt : m.order_inv.length < g.node_bound := lt_of_le_of_lt hle hbound
      have htake : m.order_inv.take g.node_bound = m.order_inv :=
        List.take_of_length_le (le_of_lt hlt)
      unfold vecResize
      rw [htake]
      refine ⟨?_, ?_, ?_⟩
      · intro x hx
        rw [List.getD_append _ _ _ _ hx]
      · rw [List.length_append, List.length_replicate]
        omega
      · rw [List.length_append, List.length_replicate]
        omega
    · rw [if_neg hle]
      exact ⟨fun _ _ => rfl, le_refl _, by omega⟩
  obtain ⟨hpres, hgrow, hidx⟩ := hF
  refine ⟨?_, ?_, ?_⟩
  · intro i h
    rw [hord] at h
    by_cases hi : i < m.order.length
    · have hget : (m.add_node id g).order.get ⟨i, by rw [hord] at *; exact h⟩ =
          m.order.get ⟨i, hi⟩ := by
        have : ((m.order ++ [id]).get ⟨i, by simpa using h⟩) = m.order.get ⟨i, hi⟩ :=
          List.get_append i hi
        rw [hord] at *
        exact this
      rw [hget, hinv]
      have hmem : m.order.get ⟨i, hi⟩ ∈ m.order := List.get_mem _ _ _
      have hne : g.to_index (m.order.get ⟨i, hi⟩) ≠ g.to_index id := by
        intro hcon
        exact hfresh (hcon ▸ List.mem_map_of_mem g.to_index hmem)
      rw [getD_set_ne _ _ _ _ hne, hpres _ (hb _ hmem)]
      exact hpos i hi
    · have hieq : i = m.order.length := by
        simp only [List.length_append, List.length_singleton] at h
        omega
      have hget : (m.add_node id g).order.get ⟨i, by rw [hord]; exact h⟩ = id := by
        rw [List.get_of_eq hord, List.get_eq_getElem]
        exact List.getElem_concat_length m.order id i hieq _
      rw [hget, hinv, getD_set_self _ _ _ hidx, hieq]
  · intro id' h'
    rw [hord] at h'
    rw [hinv, List.length_set]
    rcases List.mem_append.mp h' with hl | hr
    · exact lt_of_lt_of_le (hb id' hl) hgrow
    · have : id' = id := by simpa using hr
      rw [this]
      exact hidx
  · rw [hord, List.map_append]
    rw [List.nodup_append]
    refine ⟨hnd, by simp, ?_⟩
    intro a ha hb'
    have : a = g.to_index id := by simpa using hb'
    exact hfresh (this ▸ ha)

/-- The order map obtained from a topological order followed by a sequence of
`add_node` calls. -/
def orderMapAfter {N : Type} (g : NodeIndexer N) (order newIds : List N) :
    OrderMap N :=
  newIds.foldl (fun m id => m.add_node id g) (OrderMap.try_from_graph order g)

theorem add_nodes_Inv {N : Type} (g : NodeIndexer N) :
    ∀ (ids : List N) (m : OrderMap N),
      OrderMap.Inv g m →
      ((m.order ++ ids).map g.to_index).Nodup →
      (∀ id ∈ ids, g.to_index id < g.node_bound) →
      OrderMap.Inv g (ids.foldl (fun m id => m.add_node id g) m) := by
  intro ids
  induction ids with
  | nil => intro m hInv _ _; exact hInv
  | cons id ids ih =>
    intro m hInv hnd hb
    rw [List.foldl_cons]
    have hfresh : g.to_index id ∉ m.order.map g.to_index := by
      intro hmem
      rw [List.map_append] at hnd
      obtain ⟨_, _, hdisj⟩ := List.nodup_append.mp hnd
      exact hdisj hmem (by simp)
    have hInv' := add_node_Inv g m id hInv hfresh (hb id (List.mem_cons_self _ _))
    apply ih (m.add_node id g) hInv'
    · have hord : (m.add_node id g).order = m.order ++ [id] := (add_node_eval m id g).1
      rw [hord, List.append_assoc]
      simpa using hnd
    · intro id' h'
      exact hb id' (List.mem_cons_of_mem _ h')

/-- C10: after building an `OrderMap` from a topological order and applying
any sequence of `add_node` calls for fresh nodes whose indices lie below the
graph's `node_bound`, `order` and `order_inv` are mutually inverse: the
inverse returns every position, `get_node` after `get_order` returns every
stored node, and `get_order` after `get_node` returns every position. -/
theorem orderMap_inverse {N : Type} (g : NodeIndexer N) (order newIds : List N)
    (hbound : ∀ id ∈ order, g.to_index id < g.node_bound)
    (hnodup : ((order ++ newIds).map g.to_index).Nodup)
    (hnew : ∀ id ∈ newIds, g.to_index id < g.node_bound) :
    (∀ (i : Nat) (h : i < (orderMapAfter g order newIds).order.length),
      (orderMapAfter g order newIds).order_inv.getD
        (g.to_index ((orderMapAfter g order newIds).order.get ⟨i, h⟩)) 0 = i) ∧
    (∀ id ∈ (orderMapAfter g order newIds).order,
      (orderMapAfter g order newIds).get_node
        ((orderMapAfter g order newIds).get_order id g) = some id) ∧
    (∀ (pos : Nat) (h : pos < (orderMapAfter g order newIds).order.length),
      (orderMapAfter g order newIds).get_order
        ((orderMapAfter g order newIds).order.get ⟨pos, h⟩) g = pos) := by
  have hnd0 : (order.map g.to_index).Nodup := by
    rw [List.map_append] at hnodup
    exact (List.nodup_append.mp hnodup).1
  have hInv : OrderMap.Inv g (orderMapAfter g order newIds) := by
    apply add_nodes_Inv g newIds (OrderMap.try_from_graph order g)
      (try_from_graph_Inv g order hbound hnd0) _ hnew
    show ((OrderMap.try_from_graph order g).order ++ newIds).map g.to_index
      |>.Nodup
    exact hnodup
  obtain ⟨hpos, hb, _⟩ := hInv
  refine ⟨hpos, ?_, ?_⟩
  · intro id hmem
    obtain ⟨⟨i, hi⟩, hget⟩ := List.mem_iff_get.mp hmem
    have horder : (orderMapAfter g order newIds).get_order id g = i := by
      unfold OrderMap.get_order
      rw [← hget]
      exact hpos i hi
    rw [horder]
    unfold OrderMap.get_node
    rw [List.get?_eq_get hi, hget]
  · intro pos h
    unfold OrderMap.get_order
    exact hpos pos h

/-- Witness for C10 at a concrete instance: nodes are naturals indexed by
themselves, node bound 5, topological order [2,0,1], then adding nodes 4
and 3. -/
theorem orderMap_inverse_witness :
    (∀ (i : Nat) (h : i < (orderMapAfter (NodeIndexer.mk (fun x => x) 5) [2, 0, 1]
        [4, 3]).order.length),
      (orderMapAfter (NodeIndexer.mk (fun x => x) 5) [2, 0, 1] [4, 3]).order_inv.getD
        ((fun x => x) ((orderMapAfter (NodeIndexer.mk (fun x => x) 5) [2, 0, 1]
          [4, 3]).order.get ⟨i, h⟩)) 0 = i) ∧
    (∀ id ∈ (orderMapAfter (NodeIndexer.mk (fun x => x) 5) [2, 0, 1] [4, 3]).order,
      (orderMapAfter (NodeIndexer.mk (fun x => x) 5) [2, 0, 1] [4, 3]).get_node
        ((orderMapAfter (NodeIndexer.mk (fun x => x) 5) [2, 0, 1] [4, 3]).get_order id
          (NodeIndexer.mk (fun x => x) 5)) = some id) ∧
    (∀ (pos : Nat) (h : pos < (orderMapAfter (NodeIndexer.mk (fun x => x) 5) [2, 0, 1]
        [4, 3]).order.length),
      (orderMapAfter (NodeIndexer.mk (fun x => x) 5) [2, 0, 1] [4, 3]).get_order
        ((orderMapAfter (NodeIndexer.mk (fun x => x) 5) [2, 0, 1] [4, 3]).order.get
          ⟨pos, h⟩) (NodeIndexer.mk (fun x => x) 5) = pos) :=
  orderMap_inverse (NodeIndexer.mk (fun x => x) 5) [2, 0, 1] [4, 3]
    (by decide) (by decide) (by decide)
